import Mathlib

/-!
Shallow embedding of the go-grep regular-expression engine (package `regex`):
pattern parser (`compileExpression`), Thompson-style automaton builder
(`convert` of `match`/`concat`/`union`/`kleene` expressions) and the
subset-simulation matcher (`newMatcher`/`addState`/`move`/`Matches`).

Go pointer-identity states are modelled as natural numbers allocated from a
counter threaded through the builder.  Go maps are modelled as association
lists with first-match lookup, update-in-place insertion and key deletion.
The recursive epsilon-closure (`addState`) and the parser loop are modelled
with an explicit fuel argument so that every definition is executable by the
kernel; `Matches` and `compileExpression` instantiate the fuel with a bound
that is provably sufficient (stabilisation lemmas below).  The builder's
`panic` on an empty concatenation is modelled by `Option` (`none` = panic).
-/

namespace GoGrep

/-- Go `rune`; input characters and transition labels.  The source reserves
the rune value `0` as the epsilon marker (`const empty rune = 0`). -/
abbrev Rune := Nat

/-- Transition rows: Go's inner `map[rune][]*state`. -/
abbrev Row := List (Rune × List Nat)

/-- Transition tables: Go's `map[*state]map[rune][]*state`. -/
abbrev Table := List (Nat × Row)

/-- Inner-map lookup `row[c]`. -/
def lookupRow : Row → Rune → Option (List Nat)
  | [], _ => none
  | (r, ds) :: rest, c => if c = r then some ds else lookupRow rest c

/-- Outer-map lookup `transitions[st]`. -/
def lookupT : Table → Nat → Option Row
  | [], _ => none
  | (k, row) :: rest, st => if st = k then some row else lookupT rest st

/-- Go map assignment `t[st] = row`: replace the binding if present, else add. -/
def insertT : Table → Nat → Row → Table
  | [], st, row => [(st, row)]
  | (k, r) :: rest, st, row =>
    if st = k then (k, row) :: rest else (k, r) :: insertT rest st row

/-- Go `delete(t, st)`. -/
def deleteT (t : Table) (st : Nat) : Table :=
  t.filter (fun kr => kr.1 ≠ st)

/-- `mergeTransitions(a, b)`: `for state, transitions := range b { a[state] = transitions }`. -/
def mergeTransitions (a b : Table) : Table :=
  b.foldl (fun acc kr => insertT acc kr.1 kr.2) a

/-- The compiled regular expression: one initial state, one accepting state
and a transition table (struct `Automata`). -/
structure Automata where
  initial : Nat
  accepting : Nat
  transitions : Table
deriving DecidableEq, Repr

/-- `Automata.getTransitions`: for the epsilon marker (rune 0) the state
itself is prepended, then the table entry (if any) is appended. -/
def Automata.getTransitions (m : Automata) (st : Nat) (c : Rune) : List Nat :=
  (if c = 0 then [st] else []) ++
    (match lookupT m.transitions st with
     | some row =>
       match lookupRow row c with
       | some ds => ds
       | none => []
     | none => [])

/-- All keys of a transition table. -/
def keysT (t : Table) : List Nat := t.map (fun kr => kr.1)

/-- All destination states appearing in a row. -/
def rowDests (row : Row) : List Nat := row.flatMap (fun rd => rd.2)

/-- All destination states appearing anywhere in a table. -/
def destsT (t : Table) : List Nat := t.flatMap (fun kr => rowDests kr.2)

/-- Every state mentioned by an automaton (initial, accepting, keys,
destinations); a finite universe used to bound the closure computation. -/
def statesList (a : Automata) : List Nat :=
  a.initial :: a.accepting :: (keysT a.transitions ++ destsT a.transitions)

/-- Fuel sufficient for the epsilon-closure recursion: states are marked
`alreadyOn` before their successors are explored, so at most one recursive
level per distinct state is ever needed. -/
def fuelBound (a : Automata) : Nat := (statesList a).length + 1

/-- The `newStates` stack and `alreadyOn` flags of the matcher
(`alreadyOn` is modelled as the list of states currently marked `true`). -/
structure MatcherSt where
  newStates : List Nat
  alreadyOn : List Nat
deriving DecidableEq, Repr

/-- `matcher.addState`: push the state, mark it, then recurse into its
epsilon successors that are not already marked.  Fuel-indexed image of the
unbounded Go recursion. -/
def addStateF (a : Automata) : Nat → Nat → MatcherSt → MatcherSt
  | 0, _, ms => ms
  | f + 1, st, ms =>
    (a.getTransitions st 0).foldl
      (fun ms' ns => if ns ∈ ms'.alreadyOn then ms' else addStateF a f ns ms')
      ⟨ms.newStates ++ [st], st :: ms.alreadyOn⟩

/-- The inner loop of `matcher.move`: `for nextState in dests { if
!alreadyOn[nextState] { addState(nextState) } }`. -/
def addStatesList (a : Automata) (f : Nat) (ls : List Nat) (ms : MatcherSt) : MatcherSt :=
  ls.foldl (fun ms' ns => if ns ∈ ms'.alreadyOn then ms' else addStateF a f ns ms') ms

/-- The matcher configuration: `oldStates`, `newStates`, `alreadyOn`. -/
structure Matcher where
  oldStates : List Nat
  newStates : List Nat
  alreadyOn : List Nat
deriving DecidableEq, Repr

/-- `matcher.move(c)`: feed every transition of every old state into
`addState`, then transfer `newStates` to `oldStates` and reset the
`alreadyOn` marks of the transferred states. -/
def Automata.move (a : Automata) (f : Nat) (m : Matcher) (c : Rune) : Matcher :=
  let ms := m.oldStates.foldl
    (fun ms' s => addStatesList a f (a.getTransitions s c) ms')
    ⟨m.newStates, m.alreadyOn⟩
  ⟨ms.newStates, [], ms.alreadyOn.filter (fun x => x ∉ ms.newStates)⟩

/-- `newMatcher`: start from the initial state and take one epsilon move. -/
def newMatcherF (a : Automata) (f : Nat) : Matcher :=
  a.move f ⟨[a.initial], [], []⟩ 0

/-- `Automata.Matches` at an explicit closure fuel. -/
def MatchesF (f : Nat) (a : Automata) (s : List Rune) : Bool :=
  ((s.foldl (a.move f) (newMatcherF a f)).oldStates).contains a.accepting

/-- `Automata.Matches`: whole-string acceptance test. -/
def Automata.Matches (a : Automata) (s : List Rune) : Bool :=
  MatchesF (fuelBound a) a s

/-- Expression trees produced by the parser (`expr` with the variants
`match`, `concat`, `union`, `kleene`). -/
inductive expr where
  | match_ (c : Rune)
  | concat (exprs : List expr)
  | union (expr1 expr2 : expr)
  | kleene (e : expr)
deriving Repr

/-- The parser's `exprStack`: a run of already-parsed factors plus the
pending left alternative of a union. -/
structure exprStack where
  exprs : List expr
  unionOption : Option expr

/-- `exprStack.push`. -/
def exprStack.push (st : exprStack) (e : expr) : exprStack :=
  ⟨st.exprs ++ [e], st.unionOption⟩

/-- `exprStack.close`: wrap the current run into a concatenation node. -/
def exprStack.close (st : exprStack) : expr := .concat st.exprs

/-- `exprStack.closeUnion`: fold the pending alternative against the
just-finished run (only invoked when a pending alternative exists). -/
def exprStack.closeUnion (st : exprStack) : exprStack :=
  match st.unionOption with
  | some u => ⟨[.union u (.concat st.exprs)], none⟩
  | none => st

/-- `exprStack.modifyLastExpr`: pop the last factor, transform, push back
(callers guard against the empty run). -/
def exprStack.modifyLastExpr (st : exprStack) (f : expr → expr) : exprStack :=
  match st.exprs.getLast? with
  | some l => ⟨st.exprs.dropLast ++ [f l], st.unionOption⟩
  | none => st

/-- The end-of-run step shared by end-of-input and `)`:
close a pending union if present, then close the run. -/
def closeAll (st : exprStack) : expr :=
  (if st.unionOption.isSome then st.closeUnion else st).close

/-- `compileExpression`, fuel-indexed: one Go loop iteration per consumed
rune.  `inGroup` selects the `isClosed` callback: inside a group the loop
closes on `')'` and end of input is the propagated `io.EOF` error; at top
level only end of input closes (so a stray `')'` falls into the literal
default case).  Returns the parsed expression and the unconsumed input. -/
def compileExpressionF (inGroup : Bool) : Nat → List Rune → exprStack → Except String (expr × List Rune)
  | 0, _, _ => .error "out of fuel"
  | _ + 1, [], stack =>
    if inGroup then .error "EOF" else .ok (closeAll stack, [])
  | f + 1, c :: rest, stack =>
    if inGroup ∧ c = 41 then .ok (closeAll stack, rest)
    else if c = 42 then
      if stack.exprs.length = 0 then
        .error "Invalid regular expression: expected expression before '*'"
      else compileExpressionF inGroup f rest (stack.modifyLastExpr (fun e => .kleene e))
    else if c = 40 then
      match compileExpressionF true f rest ⟨[], none⟩ with
      | .error e => .error e
      | .ok (e, rest') => compileExpressionF inGroup f rest' (stack.push e)
    else if c = 124 then
      let st := if stack.unionOption.isSome then stack.closeUnion else stack
      compileExpressionF inGroup f rest ⟨[], some st.close⟩
    else compileExpressionF inGroup f rest (stack.push (.match_ c))

/-- `compileExpression` with its provably sufficient fuel. -/
def compileExpression (inGroup : Bool) (input : List Rune) (stack : exprStack) :
    Except String (expr × List Rune) :=
  compileExpressionF inGroup (input.length + 1) input stack

/-- `concatAutomata`: merge the tables, rebind `a`'s accepting state to
`b`'s initial state's row, drop `b`'s initial state, keep `b`'s accept. -/
def concatAutomata (a b : Automata) : Automata :=
  let t := mergeTransitions a.transitions b.transitions
  let t := insertT t a.accepting ((lookupT t b.initial).getD [])
  let t := deleteT t b.initial
  ⟨a.initial, b.accepting, t⟩

/-- The table wiring of `union.convert` given the two fresh states `n`
(initial) and `n+1` (accepting); note the fresh accepting state is *not*
added as a key. -/
def unionWire (n : Nat) (a1 a2 : Automata) : Automata :=
  let t := mergeTransitions a1.transitions a2.transitions
  let t := insertT t n [(0, [a1.initial, a2.initial])]
  let t := insertT t a1.accepting [(0, [n + 1])]
  let t := insertT t a2.accepting [(0, [n + 1])]
  ⟨n, n + 1, t⟩

/-- The table wiring of `kleene.convert` given the fresh states `n`
(initial) and `n+1` (accepting). -/
def kleeneWire (n : Nat) (sub : Automata) : Automata :=
  let t := sub.transitions
  let t := insertT t n [(0, [sub.initial, n + 1])]
  let t := insertT t sub.accepting [(0, [n + 1, sub.initial])]
  let t := insertT t (n + 1) []
  ⟨n, n + 1, t⟩

mutual

/-- `expr.convert`.  The `Nat` argument and result thread the supply of
fresh state identities (Go allocates fresh heap pointers).  `none` models
the `panic` on an empty concatenation
(`"Concat expression has no subexpressions"`). -/
def convert : expr → Nat → Option (Automata × Nat)
  | .match_ c, n => some (⟨n, n + 1, [(n, [(c, [n + 1])]), (n + 1, [])]⟩, n + 2)
  | .concat [], _ => none
  | .concat (e0 :: rest), n =>
    (convert e0 n).bind (fun p => convertRest rest p.1 p.2)
  | .union e1 e2, n =>
    (convert e1 (n + 2)).bind (fun p1 =>
      (convert e2 p1.2).map (fun p2 => (unionWire n p1.1 p2.1, p2.2)))
  | .kleene e1, n =>
    (convert e1 (n + 2)).map (fun p => (kleeneWire n p.1, p.2))

/-- The loop of `concat.convert`:
`for expr in exprs[1:] { automata = concatAutomata(automata, expr.convert()) }`. -/
def convertRest : List expr → Automata → Nat → Option (Automata × Nat)
  | [], a, n => some (a, n)
  | e :: rest, a, n =>
    (convert e n).bind (fun p => convertRest rest (concatAutomata a p.1) p.2)

end

/-- `Compile`: parse then build.  `.error` is a parse error; `.ok none`
models the builder's panic; `.ok (some a)` is a successful compilation. -/
def Compile (input : List Rune) : Except String (Option Automata) :=
  match compileExpression false input ⟨[], none⟩ with
  | .error e => .error e
  | .ok (e, _) => .ok ((convert e 0).map (fun p => p.1))

/-! Derived views and specification-side notions used by the theorems. -/

/-- One configuration step of the simulation: the `oldStates` produced by
`move` from a matcher whose `newStates` and `alreadyOn` are empty (which
is the matcher's normal form between moves, see `move_norm`). -/
def stepConf (a : Automata) (f : Nat) (old : List Nat) (c : Rune) : List Nat :=
  (a.move f ⟨old, [], []⟩ c).oldStates

/-- The initial configuration: epsilon-closure of the initial state. -/
def initConfF (a : Automata) (f : Nat) : List Nat := stepConf a f [a.initial] 0

/-- The configuration after consuming the whole input. -/
def confRun (a : Automata) (f : Nat) (s : List Rune) : List Nat :=
  s.foldl (stepConf a f) (initConfF a f)

/-- The matcher-state invariant: a state is marked `alreadyOn` exactly when
it sits on the `newStates` stack. -/
def MSInv (ms : MatcherSt) : Prop := ∀ x, x ∈ ms.alreadyOn ↔ x ∈ ms.newStates

/-- All destination states of a configuration under one input symbol. -/
def flatDests (a : Automata) (old : List Nat) (c : Rune) : List Nat :=
  old.flatMap (fun s => a.getTransitions s c)

/-- Epsilon-reachability from a seed set (`getTransitions _ 0` steps). -/
inductive EpsClosure (a : Automata) (seeds : List Nat) : Nat → Prop where
  | base {s : Nat} : s ∈ seeds → EpsClosure a seeds s
  | step {s t : Nat} : EpsClosure a seeds s → t ∈ a.getTransitions s 0 → EpsClosure a seeds t

/-- Reachability from the automaton's initial state along any transitions. -/
inductive Reach (a : Automata) : Nat → Prop where
  | init : Reach a a.initial
  | step {s t : Nat} {c : Rune} : Reach a s → t ∈ a.getTransitions s c → Reach a t

/-- Number of universe states not yet marked; the measure that shrinks as
`addState` marks states, bounding the recursion depth. -/
def cnt (a : Automata) (ms : MatcherSt) : Nat :=
  ((statesList a).toFinset \ ms.alreadyOn.toFinset).card

mutual

/-- Size of an expression tree (induction measure for builder proofs). -/
def exprSize : expr → Nat
  | .match_ _ => 1
  | .concat es => exprSizeL es + 1
  | .union e1 e2 => exprSize e1 + exprSize e2 + 1
  | .kleene e => exprSize e + 1

/-- Total size of a list of expression trees. -/
def exprSizeL : List expr → Nat
  | [] => 0
  | e :: rest => exprSize e + exprSizeL rest

end

/-- The structural invariant of every built automaton fragment: the initial
state is a table key, every destination is a table key or the accepting
state, and the initial state is never a destination. -/
def TableInv (a : Automata) : Prop :=
  a.initial ∈ keysT a.transitions ∧
    (∀ d ∈ destsT a.transitions, d ∈ keysT a.transitions ∨ d = a.accepting) ∧
    a.initial ∉ destsT a.transitions

/-- All state identities of the automaton lie in the half-open range of the
fresh-state counter. -/
def Bounded (a : Automata) (n m : Nat) : Prop :=
  ∀ x ∈ statesList a, n ≤ x ∧ x < m

/-- The compiled automaton of the pattern `a*` (see `C1_compile_eq`). -/
def astarA : Automata :=
  ⟨0, 1, [(2, [(97, [3])]), (3, [(0, [1, 2])]), (0, [(0, [2, 1])]), (1, [])]⟩

/-- The compiled automaton of the pattern `abc`. -/
def abcA : Automata :=
  ⟨0, 5, [(0, [(97, [1])]), (1, [(98, [3])]), (3, [(99, [5])]), (5, [])]⟩

/-- The compiled automaton of the pattern `a|b|c`. -/
def aOrbOrcA : Automata :=
  ⟨0, 1, [(4, [(97, [5])]), (5, [(0, [3])]), (6, [(98, [7])]), (7, [(0, [3])]),
    (2, [(0, [4, 6])]), (8, [(99, [9])]), (9, [(0, [1])]), (0, [(0, [2, 8])]),
    (3, [(0, [1])])]⟩

/-- The compiled automaton of the pattern `(a|b)*c`. -/
def abStarCA : Automata :=
  ⟨0, 9, [(4, [(97, [5])]), (5, [(0, [3])]), (6, [(98, [7])]), (7, [(0, [3])]),
    (2, [(0, [4, 6])]), (0, [(0, [2, 1])]), (3, [(0, [1, 2])]), (1, [(99, [9])]),
    (9, [])]⟩

/-- The compiled automaton of the pattern `a|b`. -/
def aUbA : Automata :=
  ⟨0, 1, [(2, [(97, [3])]), (3, [(0, [1])]), (4, [(98, [5])]), (5, [(0, [1])]),
    (0, [(0, [2, 4])])]⟩

/-- The compiled automaton of the pattern `a)` (the stray `)` is parsed as
a literal by the top-level loop). -/
def aRparA : Automata :=
  ⟨0, 3, [(0, [(97, [1])]), (1, [(41, [3])]), (3, [])]⟩

/-! ### Matcher normal form

Between two `move` calls the matcher always has an empty `newStates` stack
and no `alreadyOn` marks, so a run is determined by the `oldStates`
configuration alone (`stepConf`). -/

theorem addStateF_succ (a : Automata) (f : Nat) (st : Nat) (ms : MatcherSt) :
    addStateF a (f + 1) st ms =
      addStatesList a f (a.getTransitions st 0) ⟨ms.newStates ++ [st], st :: ms.alreadyOn⟩ := rfl

theorem addStateF_msInv (a : Automata) :
    ∀ f st ms, MSInv ms → MSInv (addStateF a f st ms) := by
  intro f
  induction f with
  | zero => intro st ms h; simpa [addStateF] using h
  | succ f ih =>
    intro st ms h
    rw [addStateF_succ, addStatesList]
    apply List.foldlRecOn
    · intro x
      have hx := h x
      simp only [List.mem_cons, List.mem_append, List.mem_singleton]
      tauto
    · intro b hb ns _
      dsimp only
      split
      · exact hb
      · exact ih ns b hb

theorem addStatesList_msInv (a : Automata) (f : Nat) (ls : List Nat) (ms : MatcherSt)
    (h : MSInv ms) : MSInv (addStatesList a f ls ms) := by
  rw [addStatesList]
  apply List.foldlRecOn
  · exact h
  · intro b hb ns _
    dsimp only
    split
    · exact hb
    · exact addStateF_msInv a f ns b hb

theorem move_norm (a : Automata) (f : Nat) (old : List Nat) (c : Rune) :
    a.move f ⟨old, [], []⟩ c = ⟨stepConf a f old c, [], []⟩ := by
  have hinv : MSInv (old.foldl
      (fun ms' s => addStatesList a f (a.getTransitions s c) ms') ⟨[], []⟩) := by
    apply List.foldlRecOn
    · intro x; simp
    · intro b hb s _
      exact addStatesList_msInv a f _ b hb
  show Matcher.mk _ _ _ = Matcher.mk _ _ _
  rw [Matcher.mk.injEq]
  refine ⟨rfl, rfl, ?_⟩
  rw [List.filter_eq_nil_iff]
  intro x hx
  have := (hinv x).mp hx
  simp [this]

theorem foldl_move_norm (a : Automata) (f : Nat) :
    ∀ (s : List Rune) (conf : List Nat),
      s.foldl (a.move f) ⟨conf, [], []⟩ = ⟨s.foldl (stepConf a f) conf, [], []⟩ := by
  intro s
  induction s with
  | nil => intro conf; rfl
  | cons c t ih =>
    intro conf
    simp only [List.foldl_cons, move_norm]
    exact ih _

theorem MatchesF_eq_confRun (a : Automata) (f : Nat) (s : List Rune) :
    MatchesF f a s = (confRun a f s).contains a.accepting := by
  unfold MatchesF confRun initConfF newMatcherF
  rw [move_norm, foldl_move_norm]

theorem Matches_eq_confRun (a : Automata) (s : List Rune) :
    a.Matches s = (confRun a (fuelBound a) s).contains a.accepting :=
  MatchesF_eq_confRun a (fuelBound a) s

/-! ### Dead configurations -/

theorem stepConf_nil (a : Automata) (f : Nat) (c : Rune) : stepConf a f [] c = [] := rfl

theorem foldl_stepConf_nil (a : Automata) (f : Nat) :
    ∀ s : List Rune, s.foldl (stepConf a f) [] = [] := by
  intro s
  induction s with
  | nil => rfl
  | cons c t ih => simpa [stepConf_nil] using ih

theorem lookupT_mem : ∀ (t : Table) (k : Nat) (row : Row), lookupT t k = some row → (k, row) ∈ t := by
  intro t
  induction t with
  | nil => intro k row h; simp [lookupT] at h
  | cons kr rest ih =>
    intro k row h
    rw [lookupT] at h
    by_cases hk : k = kr.1
    · rw [if_pos hk] at h
      cases h
      subst hk
      exact List.mem_cons_self _ _
    · rw [if_neg hk] at h
      exact List.mem_cons_of_mem _ (ih k row h)

theorem getTransitions_eq_nil (a : Automata) (s : Nat) (c : Rune) (hc : c ≠ 0)
    (h : ∀ kr ∈ a.transitions, lookupRow kr.2 c = none) : a.getTransitions s c = [] := by
  unfold Automata.getTransitions
  rw [if_neg hc]
  cases hl : lookupT a.transitions s with
  | none => rfl
  | some row =>
    have hrow := h _ (lookupT_mem _ _ _ hl)
    simp [hrow]

theorem stepConf_nil_of_no_trans (a : Automata) (f : Nat) (old : List Nat) (c : Rune)
    (h : ∀ s ∈ old, a.getTransitions s c = []) : stepConf a f old c = [] := by
  unfold stepConf Automata.move
  have : old.foldl (fun ms' s => addStatesList a f (a.getTransitions s c) ms')
      ⟨([] : List Nat), ([] : List Nat)⟩ = ⟨[], []⟩ := by
    apply List.foldlRecOn (motive := fun (b : MatcherSt) => b = (⟨[], []⟩ : MatcherSt))
    · rfl
    · intro b hb s hs
      rw [h s hs]
      exact hb
  simp only [this]

/-- **C5, amended core.**  For any automaton and any *non-epsilon* input
character that labels no transition in the table, the configuration
empties out and the whole match is rejected, wherever the character sits
in the input. -/
theorem C5_dead_char (a : Automata) (c : Rune) (hc : c ≠ 0)
    (h : ∀ kr ∈ a.transitions, lookupRow kr.2 c = none) :
    ∀ s1 s2 : List Rune, a.Matches (s1 ++ c :: s2) = false := by
  intro s1 s2
  rw [Matches_eq_confRun]
  unfold confRun
  rw [List.foldl_append, List.foldl_cons]
  rw [stepConf_nil_of_no_trans a _ _ c (fun s _ => getTransitions_eq_nil a s c hc h)]
  rw [foldl_stepConf_nil]
  rfl

/-- Witness for `C5_dead_char`: the character `d` (100) does not occur in
the pattern `abc`, so `"ad"` is rejected. -/
theorem C5_dead_char_witness : abcA.Matches [97, 100] = false :=
  C5_dead_char abcA 100 (by decide) (by decide) [97] []

/-- **C5, counterexample.**  The character NUL (rune 0) is absent from the
alphabet of the pattern `a*`, yet feeding it does *not* empty the
configuration and does *not* force rejection: the input of two NULs is
accepted, because rune 0 collides with the epsilon marker. -/
theorem C5_counterexample :
    Compile [97, 42] = .ok (some astarA) ∧ astarA.Matches [0, 0] = true ∧
      confRun astarA (fuelBound astarA) [0, 0] ≠ [] := by
  refine ⟨rfl, by decide, by decide⟩

/-- **C6.**  The empty pattern parses to an empty concatenation run, and
the builder then panics (`"Concat expression has no subexpressions"`,
modelled by `none`): `Compile` does not return an automaton accepting the
empty string, contradicting the specification. -/
theorem C6_empty_pattern_panics :
    Compile ([] : List Rune) = .ok none ∧
      compileExpression false [] ⟨[], none⟩ = .ok (.concat [], []) ∧
      convert (.concat []) 0 = none :=
  ⟨rfl, rfl, rfl⟩

/-- **C7, counterexample.**  `compile("a)")` does not fail: the top-level
parser loop only treats `')'` as a group closer inside a group, so the
stray `')'` falls into the literal default case and compilation
succeeds. -/
theorem C7_counterexample : Compile [97, 41] = .ok (some aRparA) := rfl

/-- **C7, amended.**  `compile("a)")` succeeds; the `')'` is taken as a
literal, and the resulting automaton accepts `"a)"` while rejecting
`"a"`, `")"` and the empty string. -/
theorem C7_amended :
    Compile [97, 41] = .ok (some aRparA) ∧
      aRparA.Matches [97, 41] = true ∧ aRparA.Matches [97] = false ∧
      aRparA.Matches [41] = false ∧ aRparA.Matches [] = false := by
  refine ⟨rfl, by decide, by decide, by decide, by decide⟩

/-- **C1, counterexample.**  `matches(compile("a*"), s)` is *not* true
exactly on the strings `a^k`: the single NUL character is accepted as
well (rune 0 acts as an epsilon step). -/
theorem C1_counterexample :
    Compile [97, 42] = .ok (some astarA) ∧ astarA.Matches [0] = true ∧
      ¬∃ k : Nat, ([0] : List Rune) = List.replicate k 97 := by
  refine ⟨rfl, by decide, ?_⟩
  rintro ⟨k, hk⟩
  cases k with
  | zero => simp [List.replicate] at hk
  | succ k => simp [List.replicate] at hk

/-- **C2, counterexample.**  The automaton of `"abc"` does not accept
*only* `"abc"`: appending a NUL character still matches. -/
theorem C2_counterexample :
    Compile [97, 98, 99] = .ok (some abcA) ∧ abcA.Matches [97, 98, 99, 0] = true ∧
      ([97, 98, 99, 0] : List Rune) ≠ [97, 98, 99] := by
  refine ⟨rfl, by decide, by decide⟩

/-- **C3, counterexample.**  The automaton of `"a|b|c"` accepts more than
the three one-character strings: `"a"` followed by NUL also matches. -/
theorem C3_counterexample :
    Compile [97, 124, 98, 124, 99] = .ok (some aOrbOrcA) ∧
      aOrbOrcA.Matches [97, 0] = true ∧
      ([97, 0] : List Rune) ≠ [97] ∧ ([97, 0] : List Rune) ≠ [98] ∧
      ([97, 0] : List Rune) ≠ [99] := by
  refine ⟨rfl, by decide, by decide, by decide, by decide⟩

/-! ### C1: the pattern `a*` -/

theorem astar_rows_dead (c : Rune) (h0 : c ≠ 0) (h97 : c ≠ 97) :
    ∀ kr ∈ astarA.transitions, lookupRow kr.2 c = none := by
  intro kr hkr
  simp only [astarA, List.mem_cons, List.not_mem_nil, or_false] at hkr
  rcases hkr with h | h | h | h <;> subst h <;> simp [lookupRow, h0, h97]

theorem astar_step_dead (f : Nat) (old : List Nat) (c : Rune) (h0 : c ≠ 0) (h97 : c ≠ 97) :
    stepConf astarA f old c = [] :=
  stepConf_nil_of_no_trans _ _ _ _
    (fun s _ => getTransitions_eq_nil _ s c h0 (astar_rows_dead c h0 h97))

theorem astar_aux : ∀ s : List Rune, 0 ∉ s →
    ((s.foldl (stepConf astarA (fuelBound astarA)) [0, 2, 1]).contains 1 = true ↔
      ∀ x ∈ s, x = 97) ∧
    ((s.foldl (stepConf astarA (fuelBound astarA)) [3, 1, 2]).contains 1 = true ↔
      ∀ x ∈ s, x = 97) := by
  intro s
  induction s with
  | nil =>
    intro _
    refine ⟨⟨fun _ => ?_, fun _ => by decide⟩, ⟨fun _ => ?_, fun _ => by decide⟩⟩ <;>
      simp
  | cons c t ih =>
    intro h0
    have hc0 : c ≠ 0 := by rintro rfl; exact h0 (List.mem_cons_self _ _)
    have h0t : 0 ∉ t := fun h => h0 (List.mem_cons_of_mem _ h)
    by_cases hc : c = 97
    · subst hc
      have e1 : stepConf astarA (fuelBound astarA) [0, 2, 1] 97 = [3, 1, 2] := by decide
      have e2 : stepConf astarA (fuelBound astarA) [3, 1, 2] 97 = [3, 1, 2] := by decide
      have hIH := (ih h0t).2
      simp only [List.foldl_cons, e1, e2]
      refine ⟨?_, ?_⟩ <;> rw [hIH] <;> simp [List.forall_mem_cons]
    · simp only [List.foldl_cons, astar_step_dead _ _ c hc0 hc, foldl_stepConf_nil]
      have hfalse : (List.contains ([] : List Nat) 1 = true) ↔ False := by decide
      simp only [hfalse, false_iff, List.forall_mem_cons]
      constructor <;> exact fun h => hc h.1

/-- **C1, amended.**  `compile("a*")` succeeds, and on every input free of
the NUL character (which collides with the epsilon marker, see
`C1_counterexample`) the automaton accepts exactly the strings `a^k`,
`k ≥ 0`.  In particular it accepts the empty string and every run of
`a`s, and rejects `"b"`. -/
theorem C1_kleene_star (s : List Rune) (h : 0 ∉ s) :
    Compile [97, 42] = .ok (some astarA) ∧
      (astarA.Matches s = true ↔ ∃ k, s = List.replicate k 97) := by
  refine ⟨rfl, ?_⟩
  rw [Matches_eq_confRun]
  unfold confRun
  have hinit : initConfF astarA (fuelBound astarA) = [0, 2, 1] := by decide
  have hacc : astarA.accepting = 1 := rfl
  rw [hinit, hacc, (astar_aux s h).1]
  constructor
  · intro hall
    exact ⟨s.length, List.eq_replicate_iff.mpr ⟨rfl, hall⟩⟩
  · rintro ⟨k, rfl⟩ x hx
    exact List.eq_of_mem_replicate hx

/-- Witness for `C1_kleene_star` at the concrete input `"aa"`. -/
theorem C1_kleene_star_witness : astarA.Matches [97, 97] = true :=
  ((C1_kleene_star [97, 97] (by decide)).2).mpr ⟨2, rfl⟩

/-! ### C2: the pattern `abc` -/

theorem abc_dead0 (c : Rune) (h0 : c ≠ 0) (h97 : c ≠ 97) :
    stepConf abcA (fuelBound abcA) [0] c = [] := by
  apply stepConf_nil_of_no_trans
  intro s hs
  simp only [List.mem_singleton] at hs
  subst hs
  simp [Automata.getTransitions, abcA, lookupT, lookupRow, h0, h97]

theorem abc_dead1 (c : Rune) (h0 : c ≠ 0) (h98 : c ≠ 98) :
    stepConf abcA (fuelBound abcA) [1] c = [] := by
  apply stepConf_nil_of_no_trans
  intro s hs
  simp only [List.mem_singleton] at hs
  subst hs
  simp [Automata.getTransitions, abcA, lookupT, lookupRow, h0, h98]

theorem abc_dead3 (c : Rune) (h0 : c ≠ 0) (h99 : c ≠ 99) :
    stepConf abcA (fuelBound abcA) [3] c = [] := by
  apply stepConf_nil_of_no_trans
  intro s hs
  simp only [List.mem_singleton] at hs
  subst hs
  simp [Automata.getTransitions, abcA, lookupT, lookupRow, h0, h99]

theorem abc_dead5 (c : Rune) (h0 : c ≠ 0) :
    stepConf abcA (fuelBound abcA) [5] c = [] := by
  apply stepConf_nil_of_no_trans
  intro s hs
  simp only [List.mem_singleton] at hs
  subst hs
  simp [Automata.getTransitions, abcA, lookupT, lookupRow, h0]

theorem abc_aux : ∀ s : List Rune, 0 ∉ s →
    ((s.foldl (stepConf abcA (fuelBound abcA)) [0]).contains 5 = true ↔ s = [97, 98, 99]) ∧
    ((s.foldl (stepConf abcA (fuelBound abcA)) [1]).contains 5 = true ↔ s = [98, 99]) ∧
    ((s.foldl (stepConf abcA (fuelBound abcA)) [3]).contains 5 = true ↔ s = [99]) ∧
    ((s.foldl (stepConf abcA (fuelBound abcA)) [5]).contains 5 = true ↔ s = []) := by
  intro s
  induction s with
  | nil => exact fun _ => ⟨by decide, by decide, by decide, by decide⟩
  | cons c t ih =>
    intro h0
    have hc0 : c ≠ 0 := by rintro rfl; exact h0 (List.mem_cons_self _ _)
    have h0t : 0 ∉ t := fun h => h0 (List.mem_cons_of_mem _ h)
    obtain ⟨ih0, ih1, ih3, ih5⟩ := ih h0t
    have hnil : (List.contains ([] : List Nat) 5 = true) ↔ False := by decide
    refine ⟨?_, ?_, ?_, ?_⟩
    · by_cases hc : c = 97
      · subst hc
        rw [List.foldl_cons, (by decide : stepConf abcA (fuelBound abcA) [0] 97 = [1]), ih1]
        simp
      · rw [List.foldl_cons, abc_dead0 c hc0 hc, foldl_stepConf_nil]
        simp only [hnil, false_iff]
        simp [hc]
    · by_cases hc : c = 98
      · subst hc
        rw [List.foldl_cons, (by decide : stepConf abcA (fuelBound abcA) [1] 98 = [3]), ih3]
        simp
      · rw [List.foldl_cons, abc_dead1 c hc0 hc, foldl_stepConf_nil]
        simp only [hnil, false_iff]
        simp [hc]
    · by_cases hc : c = 99
      · subst hc
        rw [List.foldl_cons, (by decide : stepConf abcA (fuelBound abcA) [3] 99 = [5]), ih5]
        simp
      · rw [List.foldl_cons, abc_dead3 c hc0 hc, foldl_stepConf_nil]
        simp only [hnil, false_iff]
        simp [hc]
    · rw [List.foldl_cons, abc_dead5 c hc0, foldl_stepConf_nil]
      simp only [hnil, false_iff]
      simp

/-- **C2, amended.**  `compile("abc")` succeeds and, on every input free
of the NUL character (see `C2_counterexample`), matching is whole-string:
exactly the input `"abc"` is accepted; in particular the proper prefix
`"ab"`, the proper extension `"abcd"` and the empty string are
rejected. -/
theorem C2_whole_string (s : List Rune) (h : 0 ∉ s) :
    Compile [97, 98, 99] = .ok (some abcA) ∧
      (abcA.Matches s = true ↔ s = [97, 98, 99]) ∧
      abcA.Matches [97, 98] = false ∧ abcA.Matches [97, 98, 99, 100] = false ∧
      abcA.Matches [] = false := by
  refine ⟨rfl, ?_, by decide, by decide, by decide⟩
  rw [Matches_eq_confRun]
  unfold confRun
  have hinit : initConfF abcA (fuelBound abcA) = [0] := by decide
  have hacc : abcA.accepting = 5 := rfl
  rw [hinit, hacc]
  exact (abc_aux s h).1

/-- Witness for `C2_whole_string` at the concrete input `"abc"`. -/
theorem C2_whole_string_witness : abcA.Matches [97, 98, 99] = true :=
  ((C2_whole_string [97, 98, 99] (by decide)).2.1).mpr rfl

/-! ### C3: the pattern `a|b|c` -/

theorem or3_dead_init (c : Rune) (h0 : c ≠ 0) (h97 : c ≠ 97) (h98 : c ≠ 98) (h99 : c ≠ 99) :
    stepConf aOrbOrcA (fuelBound aOrbOrcA) [0, 2, 4, 6, 8] c = [] := by
  apply stepConf_nil_of_no_trans
  intro s hs
  simp only [List.mem_cons, List.not_mem_nil, or_false] at hs
  rcases hs with rfl | rfl | rfl | rfl | rfl <;>
    simp [Automata.getTransitions, aOrbOrcA, lookupT, lookupRow, h0, h97, h98, h99]

theorem or3_dead_a (c : Rune) (h0 : c ≠ 0) :
    stepConf aOrbOrcA (fuelBound aOrbOrcA) [5, 3, 1] c = [] := by
  apply stepConf_nil_of_no_trans
  intro s hs
  simp only [List.mem_cons, List.not_mem_nil, or_false] at hs
  rcases hs with rfl | rfl | rfl <;>
    simp [Automata.getTransitions, aOrbOrcA, lookupT, lookupRow, h0]

theorem or3_dead_b (c : Rune) (h0 : c ≠ 0) :
    stepConf aOrbOrcA (fuelBound aOrbOrcA) [7, 3, 1] c = [] := by
  apply stepConf_nil_of_no_trans
  intro s hs
  simp only [List.mem_cons, List.not_mem_nil, or_false] at hs
  rcases hs with rfl | rfl | rfl <;>
    simp [Automata.getTransitions, aOrbOrcA, lookupT, lookupRow, h0]

theorem or3_dead_c (c : Rune) (h0 : c ≠ 0) :
    stepConf aOrbOrcA (fuelBound aOrbOrcA) [9, 1] c = [] := by
  apply stepConf_nil_of_no_trans
  intro s hs
  simp only [List.mem_cons, List.not_mem_nil, or_false] at hs
  rcases hs with rfl | rfl <;>
    simp [Automata.getTransitions, aOrbOrcA, lookupT, lookupRow, h0]

theorem or3_aux : ∀ s : List Rune, 0 ∉ s →
    ((s.foldl (stepConf aOrbOrcA (fuelBound aOrbOrcA)) [0, 2, 4, 6, 8]).contains 1 = true ↔
      (s = [97] ∨ s = [98] ∨ s = [99])) ∧
    ((s.foldl (stepConf aOrbOrcA (fuelBound aOrbOrcA)) [5, 3, 1]).contains 1 = true ↔ s = []) ∧
    ((s.foldl (stepConf aOrbOrcA (fuelBound aOrbOrcA)) [7, 3, 1]).contains 1 = true ↔ s = []) ∧
    ((s.foldl (stepConf aOrbOrcA (fuelBound aOrbOrcA)) [9, 1]).contains 1 = true ↔ s = []) := by
  intro s
  induction s with
  | nil => exact fun _ => ⟨by decide, by decide, by decide, by decide⟩
  | cons c t ih =>
    intro h0
    have hc0 : c ≠ 0 := by rintro rfl; exact h0 (List.mem_cons_self _ _)
    have h0t : 0 ∉ t := fun h => h0 (List.mem_cons_of_mem _ h)
    obtain ⟨ihI, iha, ihb, ihc⟩ := ih h0t
    have hnil : (List.contains ([] : List Nat) 1 = true) ↔ False := by decide
    refine ⟨?_, ?_, ?_, ?_⟩
    · by_cases h97 : c = 97
      · subst h97
        rw [List.foldl_cons,
          (by decide : stepConf aOrbOrcA (fuelBound aOrbOrcA) [0, 2, 4, 6, 8] 97 = [5, 3, 1]),
          iha]
        simp
      · by_cases h98 : c = 98
        · subst h98
          rw [List.foldl_cons,
            (by decide : stepConf aOrbOrcA (fuelBound aOrbOrcA) [0, 2, 4, 6, 8] 98 = [7, 3, 1]),
            ihb]
          simp
        · by_cases h99 : c = 99
          · subst h99
            rw [List.foldl_cons,
              (by decide : stepConf aOrbOrcA (fuelBound aOrbOrcA) [0, 2, 4, 6, 8] 99 = [9, 1]),
              ihc]
            simp
          · rw [List.foldl_cons, or3_dead_init c hc0 h97 h98 h99, foldl_stepConf_nil]
            simp only [hnil, false_iff]
            simp [h97, h98, h99]
    · rw [List.foldl_cons, or3_dead_a c hc0, foldl_stepConf_nil]
      simp only [hnil, false_iff]
      simp
    · rw [List.foldl_cons, or3_dead_b c hc0, foldl_stepConf_nil]
      simp only [hnil, false_iff]
      simp
    · rw [List.foldl_cons, or3_dead_c c hc0, foldl_stepConf_nil]
      simp only [hnil, false_iff]
      simp

/-- **C3, amended.**  `compile("a|b|c")` succeeds (the second `|` folds
the pending alternative left-to-right) and, on every input free of the
NUL character (see `C3_counterexample`), the automaton accepts exactly
the three one-character strings `"a"`, `"b"`, `"c"`; in particular
`"ab"` and the empty string are rejected. -/
theorem C3_flat_alternation (s : List Rune) (h : 0 ∉ s) :
    Compile [97, 124, 98, 124, 99] = .ok (some aOrbOrcA) ∧
      (aOrbOrcA.Matches s = true ↔ (s = [97] ∨ s = [98] ∨ s = [99])) ∧
      aOrbOrcA.Matches [97, 98] = false ∧ aOrbOrcA.Matches [] = false := by
  refine ⟨rfl, ?_, by decide, by decide⟩
  rw [Matches_eq_confRun]
  unfold confRun
  have hinit : initConfF aOrbOrcA (fuelBound aOrbOrcA) = [0, 2, 4, 6, 8] := by decide
  have hacc : aOrbOrcA.accepting = 1 := rfl
  rw [hinit, hacc]
  exact (or3_aux s h).1

/-- Witness for `C3_flat_alternation` at the concrete input `"b"`. -/
theorem C3_flat_alternation_witness : aOrbOrcA.Matches [98] = true :=
  ((C3_flat_alternation [98] (by decide)).2.1).mpr (Or.inr (Or.inl rfl))

/-! ### C4: the pattern `(a|b)*c` -/

theorem abstarc_aux : ∀ s : List Rune, (∀ x ∈ s, x = 97 ∨ x = 98) →
    ∀ K : List Nat,
      (K = [0, 2, 4, 6, 1] ∨ K = [5, 3, 1, 2, 4, 6] ∨ K = [7, 3, 1, 2, 4, 6]) →
      (s.foldl (stepConf abStarCA (fuelBound abStarCA)) K = [0, 2, 4, 6, 1] ∨
        s.foldl (stepConf abStarCA (fuelBound abStarCA)) K = [5, 3, 1, 2, 4, 6] ∨
        s.foldl (stepConf abStarCA (fuelBound abStarCA)) K = [7, 3, 1, 2, 4, 6]) := by
  intro s
  induction s with
  | nil => exact fun _ K hK => hK
  | cons c t ih =>
    intro hall K hK
    have hc := hall c (List.mem_cons_self _ _)
    have ht : ∀ x ∈ t, x = 97 ∨ x = 98 := fun x hx => hall x (List.mem_cons_of_mem _ hx)
    rw [List.foldl_cons]
    apply ih ht
    rcases hc with rfl | rfl <;> rcases hK with rfl | rfl | rfl <;>
      first
        | exact Or.inr (Or.inl (by decide))
        | exact Or.inr (Or.inr (by decide))

/-- **C4.**  `compile("(a|b)*c")` succeeds; the automaton accepts `"c"`,
`"aabbc"` and in general any string of `a`s and `b`s followed by a single
`c`, and rejects `"aabb"` and the empty string. -/
theorem C4_nested_pattern (s : List Rune) (h : ∀ x ∈ s, x = 97 ∨ x = 98) :
    Compile [40, 97, 124, 98, 41, 42, 99] = .ok (some abStarCA) ∧
      abStarCA.Matches [99] = true ∧ abStarCA.Matches [97, 97, 98, 98, 99] = true ∧
      abStarCA.Matches (s ++ [99]) = true ∧
      abStarCA.Matches [97, 97, 98, 98] = false ∧ abStarCA.Matches [] = false := by
  refine ⟨rfl, by decide, by decide, ?_, by decide, by decide⟩
  rw [Matches_eq_confRun]
  unfold confRun
  have hinit : initConfF abStarCA (fuelBound abStarCA) = [0, 2, 4, 6, 1] := by decide
  rw [hinit, List.foldl_append]
  rcases abstarc_aux s h [0, 2, 4, 6, 1] (Or.inl rfl) with hK | hK | hK <;>
    rw [hK] <;> decide

/-- Witness for `C4_nested_pattern` at the concrete input `"abc"`. -/
theorem C4_nested_pattern_witness : abStarCA.Matches ([97, 98] ++ [99]) = true :=
  (C4_nested_pattern [97, 98] (by decide)).2.2.2.1

/-! ### Epsilon-closure computation: structural lemmas

These lemmas analyse `addState`/`move` for an arbitrary automaton: the
`alreadyOn` marks grow monotonically, the added states are exactly the
epsilon-closure of the fed destinations, the recursion depth is bounded by
the number of unmarked states, and no state is pushed twice. -/

theorem addStatesList_cons (a : Automata) (f : Nat) (n : Nat) (rest : List Nat) (ms : MatcherSt) :
    addStatesList a f (n :: rest) ms =
      addStatesList a f rest (if n ∈ ms.alreadyOn then ms else addStateF a f n ms) := rfl

theorem addStateF_mono (a : Automata) : ∀ (f st : Nat) (ms : MatcherSt),
    (∀ x ∈ ms.alreadyOn, x ∈ (addStateF a f st ms).alreadyOn) ∧
    (∀ x ∈ ms.newStates, x ∈ (addStateF a f st ms).newStates) := by
  intro f
  induction f with
  | zero => exact fun st ms => ⟨fun x h => h, fun x h => h⟩
  | succ f ih =>
    intro st ms
    rw [addStateF_succ, addStatesList]
    apply List.foldlRecOn (motive := fun (b : MatcherSt) =>
      (∀ x ∈ ms.alreadyOn, x ∈ b.alreadyOn) ∧ (∀ x ∈ ms.newStates, x ∈ b.newStates))
    · exact ⟨fun x hx => List.mem_cons_of_mem _ hx, fun x hx => List.mem_append_left _ hx⟩
    · intro b hb ns _
      dsimp only
      split
      · exact hb
      · obtain ⟨h1, h2⟩ := ih ns b
        exact ⟨fun x hx => h1 x (hb.1 x hx), fun x hx => h2 x (hb.2 x hx)⟩

theorem addStatesList_mono (a : Automata) (f : Nat) (ls : List Nat) (ms : MatcherSt) :
    (∀ x ∈ ms.alreadyOn, x ∈ (addStatesList a f ls ms).alreadyOn) ∧
    (∀ x ∈ ms.newStates, x ∈ (addStatesList a f ls ms).newStates) := by
  rw [addStatesList]
  apply List.foldlRecOn (motive := fun (b : MatcherSt) =>
    (∀ x ∈ ms.alreadyOn, x ∈ b.alreadyOn) ∧ (∀ x ∈ ms.newStates, x ∈ b.newStates))
  · exact ⟨fun x hx => hx, fun x hx => hx⟩
  · intro b hb ns _
    dsimp only
    split
    · exact hb
    · obtain ⟨h1, h2⟩ := addStateF_mono a f ns b
      exact ⟨fun x hx => h1 x (hb.1 x hx), fun x hx => h2 x (hb.2 x hx)⟩

theorem addStateF_marks (a : Automata) (f st : Nat) (ms : MatcherSt) (hf : 1 ≤ f) :
    st ∈ (addStateF a f st ms).alreadyOn := by
  cases f with
  | zero => omega
  | succ f =>
    rw [addStateF_succ, addStatesList]
    apply List.foldlRecOn (motive := fun (b : MatcherSt) => st ∈ b.alreadyOn)
    · exact List.mem_cons_self _ _
    · intro b hb ns _
      dsimp only
      split
      · exact hb
      · exact (addStateF_mono a f ns b).1 st hb

theorem addStatesList_marks (a : Automata) (f : Nat) (hf : 1 ≤ f) :
    ∀ (ls : List Nat) (ms : MatcherSt) (x : Nat), x ∈ ls →
      x ∈ (addStatesList a f ls ms).alreadyOn := by
  intro ls
  induction ls with
  | nil => intro ms x hx; exact absurd hx (List.not_mem_nil x)
  | cons n rest ih =>
    intro ms x hx
    rw [addStatesList_cons]
    rcases List.mem_cons.mp hx with rfl | hx
    · by_cases hn : x ∈ ms.alreadyOn
      · rw [if_pos hn]
        exact (addStatesList_mono a f rest ms).1 x hn
      · rw [if_neg hn]
        exact (addStatesList_mono a f rest _).1 x (addStateF_marks a f x ms hf)
    · exact ih _ x hx

theorem addStateF_subQ (a : Automata) (Q : Nat → Prop)
    (hQ : ∀ x t, Q x → t ∈ a.getTransitions x 0 → Q t) :
    ∀ (f st : Nat) (ms : MatcherSt), Q st →
      ∀ x ∈ (addStateF a f st ms).alreadyOn, x ∈ ms.alreadyOn ∨ Q x := by
  intro f
  induction f with
  | zero => exact fun st ms _ x hx => Or.inl hx
  | succ f ih =>
    intro st ms hst
    rw [addStateF_succ, addStatesList]
    apply List.foldlRecOn (motive := fun (b : MatcherSt) => ∀ x ∈ b.alreadyOn, x ∈ ms.alreadyOn ∨ Q x)
    · intro x hx
      rcases List.mem_cons.mp hx with rfl | hx
      · exact Or.inr hst
      · exact Or.inl hx
    · intro b hb ns hns
      dsimp only
      split
      · exact hb
      · intro x hx
        rcases ih ns b (hQ st ns hst hns) x hx with h | h
        · exact hb x h
        · exact Or.inr h

theorem addStatesList_subQ (a : Automata) (Q : Nat → Prop)
    (hQ : ∀ x t, Q x → t ∈ a.getTransitions x 0 → Q t)
    (f : Nat) (ls : List Nat) (ms : MatcherSt) (hls : ∀ n ∈ ls, Q n) :
    ∀ x ∈ (addStatesList a f ls ms).alreadyOn, x ∈ ms.alreadyOn ∨ Q x := by
  rw [addStatesList]
  apply List.foldlRecOn (motive := fun (b : MatcherSt) => ∀ x ∈ b.alreadyOn, x ∈ ms.alreadyOn ∨ Q x)
  · exact fun x hx => Or.inl hx
  · intro b hb ns hns
    dsimp only
    split
    · exact hb
    · intro x hx
      rcases addStateF_subQ a Q hQ f ns b (hls ns hns) x hx with h | h
      · exact hb x h
      · exact Or.inr h

theorem lookupRow_mem : ∀ (row : Row) (c : Rune) (ds : List Nat),
    lookupRow row c = some ds → (c, ds) ∈ row := by
  intro row
  induction row with
  | nil => intro c ds h; simp [lookupRow] at h
  | cons rd rest ih =>
    intro c ds h
    rw [lookupRow] at h
    by_cases hc : c = rd.1
    · rw [if_pos hc] at h
      cases h
      subst hc
      exact List.mem_cons_self _ _
    · rw [if_neg hc] at h
      exact List.mem_cons_of_mem _ (ih c ds h)

theorem getTransitions_sub_univ (a : Automata) (s : Nat) (c : Rune) :
    ∀ t ∈ a.getTransitions s c, t = s ∨ t ∈ statesList a := by
  intro t ht
  unfold Automata.getTransitions at ht
  rcases List.mem_append.mp ht with h | h
  · split at h
    · simp only [List.mem_singleton] at h
      exact Or.inl h
    · exact absurd h (List.not_mem_nil t)
  · right
    split at h
    · rename_i row hl
      split at h
      · rename_i ds hr
        have hrow : (s, row) ∈ a.transitions := lookupT_mem _ _ _ hl
        have hds : (c, ds) ∈ row := lookupRow_mem _ _ _ hr
        unfold statesList
        apply List.mem_cons_of_mem
        apply List.mem_cons_of_mem
        apply List.mem_append_right
        unfold destsT rowDests
        rw [List.mem_flatMap]
        refine ⟨(s, row), hrow, ?_⟩
        rw [List.mem_flatMap]
        exact ⟨(c, ds), hds, h⟩
      · exact absurd h (List.not_mem_nil t)
    · exact absurd h (List.not_mem_nil t)

theorem cnt_le_of_sub (a : Automata) {ms1 ms2 : MatcherSt}
    (h : ∀ x ∈ ms1.alreadyOn, x ∈ ms2.alreadyOn) :
    cnt a ms2 ≤ cnt a ms1 := by
  apply Finset.card_le_card
  apply Finset.sdiff_subset_sdiff (Finset.Subset.refl _)
  intro x hx
  rw [List.mem_toFinset] at hx ⊢
  exact h x hx

theorem cnt_lt_of_marks (a : Automata) {ms1 ms2 : MatcherSt}
    (h : ∀ x ∈ ms1.alreadyOn, x ∈ ms2.alreadyOn) {st : Nat} (hst : st ∈ statesList a)
    (h1 : st ∉ ms1.alreadyOn) (h2 : st ∈ ms2.alreadyOn) :
    cnt a ms2 < cnt a ms1 := by
  apply Finset.card_lt_card
  rw [Finset.ssubset_iff_of_subset]
  · refine ⟨st, ?_, ?_⟩
    · rw [Finset.mem_sdiff, List.mem_toFinset, List.mem_toFinset]
      exact ⟨hst, h1⟩
    · rw [Finset.mem_sdiff, List.mem_toFinset, List.mem_toFinset]
      push_neg
      intro _
      exact h2
  · apply Finset.sdiff_subset_sdiff (Finset.Subset.refl _)
    intro x hx
    rw [List.mem_toFinset] at hx ⊢
    exact h x hx

theorem cnt_le_len (a : Automata) (ms : MatcherSt) : cnt a ms ≤ (statesList a).length := by
  calc cnt a ms ≤ ((statesList a).toFinset).card :=
        Finset.card_le_card (Finset.sdiff_subset)
    _ ≤ (statesList a).length := List.toFinset_card_le _

/-- Closedness of `addState`: with fuel exceeding the number of unmarked
universe states (the visited-marking argument), every marked state has all
its epsilon successors marked or still pending. -/
theorem addState_closed (a : Automata) : ∀ f : Nat,
    (∀ (st : Nat) (ms : MatcherSt) (P : Nat → Prop), st ∈ statesList a →
      st ∉ ms.alreadyOn → cnt a ms < f →
      (∀ x ∈ ms.alreadyOn, ∀ u ∈ a.getTransitions x 0, u ∈ ms.alreadyOn ∨ u = st ∨ P u) →
      ∀ x ∈ (addStateF a f st ms).alreadyOn, ∀ u ∈ a.getTransitions x 0,
        u ∈ (addStateF a f st ms).alreadyOn ∨ P u) ∧
    (∀ (ls : List Nat) (ms : MatcherSt) (P : Nat → Prop),
      (∀ n ∈ ls, n ∈ statesList a ∨ n ∈ ms.alreadyOn) → cnt a ms < f →
      (∀ x ∈ ms.alreadyOn, ∀ u ∈ a.getTransitions x 0, u ∈ ms.alreadyOn ∨ u ∈ ls ∨ P u) →
      ∀ x ∈ (addStatesList a f ls ms).alreadyOn, ∀ u ∈ a.getTransitions x 0,
        u ∈ (addStatesList a f ls ms).alreadyOn ∨ P u) := by
  intro f
  induction f with
  | zero =>
    constructor
    · intro st ms P _ _ hcnt _; omega
    · intro ls ms P _ hcnt _; omega
  | succ f ih =>
    have hstate : ∀ (st : Nat) (ms : MatcherSt) (P : Nat → Prop), st ∈ statesList a →
        st ∉ ms.alreadyOn → cnt a ms < f + 1 →
        (∀ x ∈ ms.alreadyOn, ∀ u ∈ a.getTransitions x 0, u ∈ ms.alreadyOn ∨ u = st ∨ P u) →
        ∀ x ∈ (addStateF a (f + 1) st ms).alreadyOn, ∀ u ∈ a.getTransitions x 0,
          u ∈ (addStateF a (f + 1) st ms).alreadyOn ∨ P u := by
      intro st ms P hst hnot hcnt hcl
      rw [addStateF_succ]
      apply ih.2
      · intro n hn
        rcases getTransitions_sub_univ a st 0 n hn with rfl | h
        · exact Or.inr (List.mem_cons_self _ _)
        · exact Or.inl h
      · have hlt : cnt a (⟨ms.newStates ++ [st], st :: ms.alreadyOn⟩ : MatcherSt) < cnt a ms :=
          cnt_lt_of_marks a (fun x hx => List.mem_cons_of_mem _ hx) hst hnot
            (List.mem_cons_self _ _)
        omega
      · intro x hx u hu
        rcases List.mem_cons.mp hx with rfl | hx'
        · exact Or.inr (Or.inl hu)
        · rcases hcl x hx' u hu with h | h | h
          · exact Or.inl (List.mem_cons_of_mem _ h)
          · exact Or.inl (h ▸ List.mem_cons_self _ _)
          · exact Or.inr (Or.inr h)
    refine ⟨hstate, ?_⟩
    intro ls
    induction ls with
    | nil =>
      intro ms P _ _ hcl x hx u hu
      rcases hcl x hx u hu with h | h | h
      · exact Or.inl h
      · exact absurd h (List.not_mem_nil u)
      · exact Or.inr h
    | cons n rest ihrest =>
      intro ms P hel hcnt hcl
      rw [addStatesList_cons]
      by_cases hn : n ∈ ms.alreadyOn
      · rw [if_pos hn]
        apply ihrest
        · exact fun m hm => hel m (List.mem_cons_of_mem _ hm)
        · exact hcnt
        · intro x hx u hu
          rcases hcl x hx u hu with h | h | h
          · exact Or.inl h
          · rcases List.mem_cons.mp h with rfl | h'
            · exact Or.inl hn
            · exact Or.inr (Or.inl h')
          · exact Or.inr (Or.inr h)
      · rw [if_neg hn]
        have hnuniv : n ∈ statesList a := (hel n (List.mem_cons_self _ _)).resolve_right hn
        have hmono := (addStateF_mono a (f + 1) n ms).1
        have hmarks : n ∈ (addStateF a (f + 1) n ms).alreadyOn :=
          addStateF_marks a (f + 1) n ms (by omega)
        have hcnt' : cnt a (addStateF a (f + 1) n ms) < cnt a ms := by
          calc cnt a (addStateF a (f + 1) n ms)
              ≤ cnt a (⟨ms.newStates, n :: ms.alreadyOn⟩ : MatcherSt) := by
                apply cnt_le_of_sub
                intro x hx
                rcases List.mem_cons.mp hx with rfl | hx'
                · exact hmarks
                · exact hmono x hx'
            _ < cnt a ms :=
                cnt_lt_of_marks a (fun x hx => List.mem_cons_of_mem _ hx) hnuniv hn
                  (List.mem_cons_self _ _)
        have hclosed' := hstate n ms (fun u => u ∈ rest ∨ P u) hnuniv hn hcnt
          (by
            intro x hx u hu
            rcases hcl x hx u hu with h | h | h
            · exact Or.inl h
            · rcases List.mem_cons.mp h with rfl | h'
              · exact Or.inr (Or.inl rfl)
              · exact Or.inr (Or.inr (Or.inl h'))
            · exact Or.inr (Or.inr (Or.inr h)))
        apply ihrest
        · exact fun m hm => ((hel m (List.mem_cons_of_mem _ hm)).imp (fun h => h)
            (fun h => hmono m h))
        · omega
        · exact hclosed'

/-! ### The configuration step computes the epsilon-closure of the moved set -/

theorem stepConf_eq (a : Automata) (f : Nat) (old : List Nat) (c : Rune) :
    stepConf a f old c =
      (old.foldl (fun ms' s => addStatesList a f (a.getTransitions s c) ms')
        (⟨[], []⟩ : MatcherSt)).newStates := rfl

theorem flatDests_cons (a : Automata) (s : Nat) (rest : List Nat) (c : Rune) :
    flatDests a (s :: rest) c = a.getTransitions s c ++ flatDests a rest c := by
  simp [flatDests]

theorem move_fold_mono (a : Automata) (f : Nat) (c : Rune) (old : List Nat) (ms0 : MatcherSt) :
    ∀ x ∈ ms0.alreadyOn,
      x ∈ (old.foldl (fun ms' s => addStatesList a f (a.getTransitions s c) ms')
        ms0).alreadyOn := by
  apply List.foldlRecOn (motive := fun (b : MatcherSt) => ∀ x ∈ ms0.alreadyOn, x ∈ b.alreadyOn)
  · exact fun x hx => hx
  · intro b hb s _ x hx
    exact (addStatesList_mono a f _ b).1 x (hb x hx)

theorem move_fold_dests (a : Automata) (f : Nat) (c : Rune) (hf : 1 ≤ f) :
    ∀ (old : List Nat) (ms0 : MatcherSt) (s : Nat), s ∈ old →
      ∀ u ∈ a.getTransitions s c,
        u ∈ (old.foldl (fun ms' s => addStatesList a f (a.getTransitions s c) ms')
          ms0).alreadyOn := by
  intro old
  induction old with
  | nil => intro ms0 s hs; exact absurd hs (List.not_mem_nil s)
  | cons s0 rest ih =>
    intro ms0 s hs u hu
    rw [List.foldl_cons]
    rcases List.mem_cons.mp hs with rfl | hs'
    · exact move_fold_mono a f c rest _ u (addStatesList_marks a f hf _ ms0 u hu)
    · exact ih _ s hs' u hu

theorem move_fold_subQ (a : Automata) (f : Nat) (c : Rune) (Q : Nat → Prop)
    (hQ : ∀ x t, Q x → t ∈ a.getTransitions x 0 → Q t) :
    ∀ (old : List Nat) (ms0 : MatcherSt), (∀ s ∈ old, ∀ n ∈ a.getTransitions s c, Q n) →
      ∀ x ∈ (old.foldl (fun ms' s => addStatesList a f (a.getTransitions s c) ms')
        ms0).alreadyOn, x ∈ ms0.alreadyOn ∨ Q x := by
  intro old ms0 hseeds
  apply List.foldlRecOn (motive := fun (b : MatcherSt) =>
    ∀ x ∈ b.alreadyOn, x ∈ ms0.alreadyOn ∨ Q x)
  · exact fun x hx => Or.inl hx
  · intro b hb s hs x hx
    rcases addStatesList_subQ a Q hQ f _ b (hseeds s hs) x hx with h | h
    · exact hb x h
    · exact Or.inr h

theorem move_fold_closed (a : Automata) (f : Nat) (c : Rune)
    (hf : (statesList a).length < f) :
    ∀ (old : List Nat) (ms0 : MatcherSt), (∀ s ∈ old, s ∈ statesList a) →
      (∀ x ∈ ms0.alreadyOn, ∀ u ∈ a.getTransitions x 0,
        u ∈ ms0.alreadyOn ∨ u ∈ flatDests a old c) →
      ∀ x ∈ (old.foldl (fun ms' s => addStatesList a f (a.getTransitions s c) ms')
          ms0).alreadyOn,
        ∀ u ∈ a.getTransitions x 0,
          u ∈ (old.foldl (fun ms' s => addStatesList a f (a.getTransitions s c) ms')
            ms0).alreadyOn := by
  intro old
  induction old with
  | nil =>
    intro ms0 _ hcl x hx u hu
    rcases hcl x hx u hu with h | h
    · exact h
    · exact absurd h (List.not_mem_nil u)
  | cons s0 rest ih =>
    intro ms0 hold hcl
    rw [List.foldl_cons]
    apply ih
    · exact fun s hs => hold s (List.mem_cons_of_mem _ hs)
    · have hs0 : s0 ∈ statesList a := hold s0 (List.mem_cons_self _ _)
      have := (addState_closed a f).2 (a.getTransitions s0 c) ms0
        (fun u => u ∈ flatDests a rest c)
        (by
          intro n hn
          rcases getTransitions_sub_univ a s0 c n hn with rfl | h
          · exact Or.inl hs0
          · exact Or.inl h)
        (by have := cnt_le_len a ms0; omega)
        (by
          intro x hx u hu
          rcases hcl x hx u hu with h | h
          · exact Or.inl h
          · rw [flatDests_cons] at h
            rcases List.mem_append.mp h with h' | h'
            · exact Or.inr (Or.inl h')
            · exact Or.inr (Or.inr h'))
      exact this

theorem EpsClosure_sub (a : Automata) (seeds : List Nat) (M : Nat → Prop)
    (hs : ∀ x ∈ seeds, M x)
    (hM : ∀ x u, M x → u ∈ a.getTransitions x 0 → M u) :
    ∀ t, EpsClosure a seeds t → M t := by
  intro t h
  induction h with
  | base hmem => exact hs _ hmem
  | step _ hu ih => exact hM _ _ ih hu

theorem EpsClosure_congr (a : Automata) {d1 d2 : List Nat}
    (h : ∀ x, x ∈ d1 ↔ x ∈ d2) (t : Nat) :
    EpsClosure a d1 t ↔ EpsClosure a d2 t := by
  constructor <;> intro hd
  · induction hd with
    | base hmem => exact EpsClosure.base ((h _).mp hmem)
    | step _ hu ih => exact EpsClosure.step ih hu
  · induction hd with
    | base hmem => exact EpsClosure.base ((h _).mpr hmem)
    | step _ hu ih => exact EpsClosure.step ih hu

theorem self_mem_eps (a : Automata) (t : Nat) : t ∈ a.getTransitions t 0 := by
  unfold Automata.getTransitions
  apply List.mem_append_left
  rw [if_pos rfl]
  exact List.mem_cons_self _ _

/-- The configuration produced by one `move` is exactly the epsilon-closure
of the destination states of the old configuration under the input
character. -/
theorem stepConf_mem (a : Automata) (old : List Nat) (c : Rune) (f : Nat)
    (hold : ∀ s ∈ old, s ∈ statesList a) (hf : (statesList a).length < f) :
    ∀ t, t ∈ stepConf a f old c ↔ EpsClosure a (flatDests a old c) t := by
  intro t
  rw [stepConf_eq]
  have hmsinv : MSInv (old.foldl (fun ms' s => addStatesList a f (a.getTransitions s c) ms')
      (⟨[], []⟩ : MatcherSt)) := by
    apply List.foldlRecOn (motive := MSInv)
    · intro x; simp
    · intro b hb s _
      exact addStatesList_msInv a f _ b hb
  rw [← hmsinv t]
  constructor
  · intro ht
    rcases move_fold_subQ a f c (EpsClosure a (flatDests a old c))
      (fun x u hx hu => EpsClosure.step hx hu) old ⟨[], []⟩
      (fun s hs n hn => EpsClosure.base (by
        unfold flatDests
        rw [List.mem_flatMap]
        exact ⟨s, hs, hn⟩)) t ht with h | h
    · exact absurd h (List.not_mem_nil t)
    · exact h
  · intro ht
    apply EpsClosure_sub a (flatDests a old c)
      (fun u => u ∈ (old.foldl (fun ms' s => addStatesList a f (a.getTransitions s c) ms')
        (⟨[], []⟩ : MatcherSt)).alreadyOn)
    · intro u hu
      unfold flatDests at hu
      rw [List.mem_flatMap] at hu
      obtain ⟨s, hs, hu⟩ := hu
      exact move_fold_dests a f c (by omega) old ⟨[], []⟩ s hs u hu
    · intro x u hx hu
      exact move_fold_closed a f c hf old ⟨[], []⟩ hold
        (fun y hy => absurd hy (List.not_mem_nil y)) x hx u hu
    · exact ht

theorem univ_eps_closed (a : Automata) :
    ∀ x u, x ∈ statesList a → u ∈ a.getTransitions x 0 → u ∈ statesList a := by
  intro x u hx hu
  rcases getTransitions_sub_univ a x 0 u hu with rfl | h
  · exact hx
  · exact h

theorem stepConf_sub_univ (a : Automata) (old : List Nat) (c : Rune) (f : Nat)
    (hold : ∀ s ∈ old, s ∈ statesList a) (hf : (statesList a).length < f) :
    ∀ t ∈ stepConf a f old c, t ∈ statesList a := by
  intro t ht
  rw [stepConf_mem a old c f hold hf] at ht
  refine EpsClosure_sub a (flatDests a old c) (fun u => u ∈ statesList a) ?_
    (univ_eps_closed a) t ht
  intro u hu
  unfold flatDests at hu
  rw [List.mem_flatMap] at hu
  obtain ⟨s1, hs1, hu1⟩ := hu
  rcases getTransitions_sub_univ a s1 c u hu1 with rfl | h
  · exact hold _ hs1
  · exact h

theorem stepConf_closed_res (a : Automata) (old : List Nat) (c : Rune) (f : Nat)
    (hold : ∀ s ∈ old, s ∈ statesList a) (hf : (statesList a).length < f) :
    ∀ x ∈ stepConf a f old c, ∀ u ∈ a.getTransitions x 0, u ∈ stepConf a f old c := by
  intro x hx u hu
  rw [stepConf_mem a old c f hold hf] at hx ⊢
  exact EpsClosure.step hx hu

theorem stepConf_congr (a : Automata) {o1 o2 : List Nat} (c : Rune) (f : Nat)
    (h1 : ∀ s ∈ o1, s ∈ statesList a) (h2 : ∀ s ∈ o2, s ∈ statesList a)
    (hf : (statesList a).length < f) (hset : ∀ x, x ∈ o1 ↔ x ∈ o2) :
    ∀ t, t ∈ stepConf a f o1 c ↔ t ∈ stepConf a f o2 c := by
  intro t
  rw [stepConf_mem a o1 c f h1 hf, stepConf_mem a o2 c f h2 hf]
  apply EpsClosure_congr
  intro x
  unfold flatDests
  rw [List.mem_flatMap, List.mem_flatMap]
  constructor
  · rintro ⟨s, hs, hx⟩; exact ⟨s, (hset s).mp hs, hx⟩
  · rintro ⟨s, hs, hx⟩; exact ⟨s, (hset s).mpr hs, hx⟩

/-- Moving on the epsilon marker (rune 0) from an epsilon-closed
configuration reproduces the configuration as a set. -/
theorem stepConf_eps0 (a : Automata) (old : List Nat) (f : Nat)
    (hold : ∀ s ∈ old, s ∈ statesList a) (hf : (statesList a).length < f)
    (hcl : ∀ x ∈ old, ∀ u ∈ a.getTransitions x 0, u ∈ old) :
    ∀ t, t ∈ stepConf a f old 0 ↔ t ∈ old := by
  intro t
  rw [stepConf_mem a old 0 f hold hf]
  constructor
  · intro ht
    refine EpsClosure_sub a (flatDests a old 0) (fun u => u ∈ old) ?_
      (fun x u hx hu => hcl x hx u hu) t ht
    intro u hu
    unfold flatDests at hu
    rw [List.mem_flatMap] at hu
    obtain ⟨s1, hs1, hu1⟩ := hu
    exact hcl s1 hs1 u hu1
  · intro ht
    apply EpsClosure.base
    unfold flatDests
    rw [List.mem_flatMap]
    exact ⟨t, ht, self_mem_eps a t⟩

/-! ### Runs: configurations stay inside the universe, stay closed, and set-equal
configurations yield the same acceptance behaviour -/

theorem foldl_step_univ (a : Automata) (f : Nat) (hf : (statesList a).length < f) :
    ∀ (s : List Rune) (K : List Nat), (∀ x ∈ K, x ∈ statesList a) →
      ∀ t ∈ s.foldl (stepConf a f) K, t ∈ statesList a := by
  intro s
  induction s with
  | nil => exact fun K hK => hK
  | cons c t ih =>
    intro K hK
    rw [List.foldl_cons]
    exact ih _ (stepConf_sub_univ a K c f hK hf)

theorem foldl_step_closed (a : Automata) (f : Nat) (hf : (statesList a).length < f) :
    ∀ (s : List Rune) (K : List Nat), (∀ x ∈ K, x ∈ statesList a) →
      (∀ x ∈ K, ∀ u ∈ a.getTransitions x 0, u ∈ K) →
      ∀ x ∈ s.foldl (stepConf a f) K, ∀ u ∈ a.getTransitions x 0,
        u ∈ s.foldl (stepConf a f) K := by
  intro s
  induction s with
  | nil => exact fun K _ hcl => hcl
  | cons c t ih =>
    intro K hK hcl
    rw [List.foldl_cons]
    exact ih _ (stepConf_sub_univ a K c f hK hf) (stepConf_closed_res a K c f hK hf)

theorem foldl_step_congr (a : Automata) (f : Nat) (hf : (statesList a).length < f) :
    ∀ (s : List Rune) (K1 K2 : List Nat), (∀ x ∈ K1, x ∈ statesList a) →
      (∀ x ∈ K2, x ∈ statesList a) → (∀ x, x ∈ K1 ↔ x ∈ K2) →
      ∀ t, t ∈ s.foldl (stepConf a f) K1 ↔ t ∈ s.foldl (stepConf a f) K2 := by
  intro s
  induction s with
  | nil => exact fun K1 K2 _ _ hset => hset
  | cons c t ih =>
    intro K1 K2 h1 h2 hset
    rw [List.foldl_cons, List.foldl_cons]
    exact ih _ _ (stepConf_sub_univ a K1 c f h1 hf) (stepConf_sub_univ a K2 c f h2 hf)
      (stepConf_congr a c f h1 h2 hf hset)

theorem contains_congr {l1 l2 : List Nat} (x : Nat) (h : x ∈ l1 ↔ x ∈ l2) :
    l1.contains x = l2.contains x := by
  have e1 : l1.contains x = true ↔ x ∈ l1 := by simp [List.contains, List.elem_iff]
  have e2 : l2.contains x = true ↔ x ∈ l2 := by simp [List.contains, List.elem_iff]
  cases hc1 : l1.contains x
  · cases hc2 : l2.contains x
    · rfl
    · exact absurd (e1.mpr (h.mpr (e2.mp hc2))) (by rw [hc1]; exact Bool.false_ne_true)
  · exact (e2.mpr (h.mp (e1.mp hc1))).symm

theorem initial_mem_univ (a : Automata) : a.initial ∈ statesList a := by
  unfold statesList
  exact List.mem_cons_self _ _

/-- **C10.**  Inserting a NUL character (rune value 0) anywhere in the
input never changes the match result: rune 0 is the same value as the
internal epsilon marker, so consuming it performs an epsilon-closure step
on an already epsilon-closed configuration. -/
theorem C10_nul_is_epsilon (a : Automata) (s1 s2 : List Rune) :
    a.Matches (s1 ++ 0 :: s2) = a.Matches (s1 ++ s2) := by
  rw [Matches_eq_confRun, Matches_eq_confRun]
  unfold confRun
  rw [List.foldl_append, List.foldl_append, List.foldl_cons]
  have hf : (statesList a).length < fuelBound a := by unfold fuelBound; omega
  have hinit0 : ∀ s ∈ [a.initial], s ∈ statesList a := by
    intro s hs
    rw [List.mem_singleton] at hs
    subst hs
    exact initial_mem_univ a
  have hinit_univ : ∀ x ∈ initConfF a (fuelBound a), x ∈ statesList a := by
    unfold initConfF
    exact stepConf_sub_univ a [a.initial] 0 (fuelBound a) hinit0 hf
  have hinit_closed : ∀ x ∈ initConfF a (fuelBound a), ∀ u ∈ a.getTransitions x 0,
      u ∈ initConfF a (fuelBound a) := by
    unfold initConfF
    exact stepConf_closed_res a [a.initial] 0 (fuelBound a) hinit0 hf
  have hKuniv : ∀ x ∈ s1.foldl (stepConf a (fuelBound a)) (initConfF a (fuelBound a)),
      x ∈ statesList a :=
    foldl_step_univ a (fuelBound a) hf s1 _ hinit_univ
  have hKcl : ∀ x ∈ s1.foldl (stepConf a (fuelBound a)) (initConfF a (fuelBound a)),
      ∀ u ∈ a.getTransitions x 0,
        u ∈ s1.foldl (stepConf a (fuelBound a)) (initConfF a (fuelBound a)) :=
    foldl_step_closed a (fuelBound a) hf s1 _ hinit_univ hinit_closed
  have h0 := stepConf_eps0 a _ (fuelBound a) hKuniv hf hKcl
  have hstep_univ : ∀ x ∈ stepConf a (fuelBound a)
      (s1.foldl (stepConf a (fuelBound a)) (initConfF a (fuelBound a))) 0,
      x ∈ statesList a :=
    stepConf_sub_univ a _ 0 (fuelBound a) hKuniv hf
  exact contains_congr a.accepting
    (foldl_step_congr a (fuelBound a) hf s2 _ _ hstep_univ hKuniv h0 a.accepting)

/-! ### Termination of the closure computation

The fuel-indexed `addState` stabilises once the fuel exceeds the number of
unmarked universe states: marking states before exploring their successors
bounds the recursion depth.  Moreover no state is ever pushed twice onto
`newStates`. -/

theorem addState_fuel (a : Automata) : ∀ f : Nat,
    (∀ (g st : Nat) (ms : MatcherSt), st ∈ statesList a → st ∉ ms.alreadyOn →
      cnt a ms < f → cnt a ms < g → addStateF a f st ms = addStateF a g st ms) ∧
    (∀ (g : Nat) (ls : List Nat) (ms : MatcherSt),
      (∀ n ∈ ls, n ∈ statesList a ∨ n ∈ ms.alreadyOn) → cnt a ms < f → cnt a ms < g →
      addStatesList a f ls ms = addStatesList a g ls ms) := by
  intro f
  induction f with
  | zero =>
    constructor
    · intro g st ms _ _ hcnt _; omega
    · intro g ls ms _ hcnt _; omega
  | succ f ih =>
    have hstate : ∀ (g st : Nat) (ms : MatcherSt), st ∈ statesList a → st ∉ ms.alreadyOn →
        cnt a ms < f + 1 → cnt a ms < g →
        addStateF a (f + 1) st ms = addStateF a g st ms := by
      intro g st ms hst hnot hcnt hcntg
      cases g with
      | zero => omega
      | succ g =>
        rw [addStateF_succ, addStateF_succ]
        have hlt : cnt a (⟨ms.newStates ++ [st], st :: ms.alreadyOn⟩ : MatcherSt) < cnt a ms :=
          cnt_lt_of_marks a (fun x hx => List.mem_cons_of_mem _ hx) hst hnot
            (List.mem_cons_self _ _)
        apply ih.2
        · intro n hn
          rcases getTransitions_sub_univ a st 0 n hn with rfl | h
          · exact Or.inr (List.mem_cons_self _ _)
          · exact Or.inl h
        · omega
        · omega
    refine ⟨hstate, ?_⟩
    intro g ls
    induction ls with
    | nil => intro ms _ _ _; rfl
    | cons n rest ihrest =>
      intro ms hel hcnt hcntg
      rw [addStatesList_cons, addStatesList_cons]
      by_cases hn : n ∈ ms.alreadyOn
      · rw [if_pos hn, if_pos hn]
        exact ihrest ms (fun m hm => hel m (List.mem_cons_of_mem _ hm)) hcnt hcntg
      · rw [if_neg hn, if_neg hn]
        have hnuniv : n ∈ statesList a := (hel n (List.mem_cons_self _ _)).resolve_right hn
        have heq : addStateF a (f + 1) n ms = addStateF a g n ms :=
          hstate g n ms hnuniv hn hcnt hcntg
        rw [← heq]
        have hmono := (addStateF_mono a (f + 1) n ms).1
        have hmarks : n ∈ (addStateF a (f + 1) n ms).alreadyOn :=
          addStateF_marks a (f + 1) n ms (by omega)
        have hcnt' : cnt a (addStateF a (f + 1) n ms) < cnt a ms := by
          calc cnt a (addStateF a (f + 1) n ms)
              ≤ cnt a (⟨ms.newStates, n :: ms.alreadyOn⟩ : MatcherSt) := by
                apply cnt_le_of_sub
                intro x hx
                rcases List.mem_cons.mp hx with rfl | hx'
                · exact hmarks
                · exact hmono x hx'
            _ < cnt a ms :=
                cnt_lt_of_marks a (fun x hx => List.mem_cons_of_mem _ hx) hnuniv hn
                  (List.mem_cons_self _ _)
        apply ihrest
        · exact fun m hm => ((hel m (List.mem_cons_of_mem _ hm)).imp (fun h => h)
            (fun h => hmono m h))
        · omega
        · omega

theorem stepConf_fuel (a : Automata) (old : List Nat) (c : Rune) (f g : Nat)
    (hold : ∀ s ∈ old, s ∈ statesList a)
    (hf : (statesList a).length < f) (hg : (statesList a).length < g) :
    stepConf a f old c = stepConf a g old c := by
  rw [stepConf_eq, stepConf_eq]
  have : ∀ (o : List Nat) (ms0 : MatcherSt), (∀ s ∈ o, s ∈ statesList a) →
      o.foldl (fun ms' s => addStatesList a f (a.getTransitions s c) ms') ms0 =
      o.foldl (fun ms' s => addStatesList a g (a.getTransitions s c) ms') ms0 := by
    intro o
    induction o with
    | nil => intro ms0 _; rfl
    | cons s0 rest ih =>
      intro ms0 ho
      rw [List.foldl_cons, List.foldl_cons]
      have hs0 : s0 ∈ statesList a := ho s0 (List.mem_cons_self _ _)
      have heq : addStatesList a f (a.getTransitions s0 c) ms0 =
          addStatesList a g (a.getTransitions s0 c) ms0 := by
        apply (addState_fuel a f).2
        · intro n hn
          rcases getTransitions_sub_univ a s0 c n hn with rfl | h
          · exact Or.inl hs0
          · exact Or.inl h
        · have := cnt_le_len a ms0; omega
        · have := cnt_le_len a ms0; omega
      rw [heq]
      exact ih _ (fun s hs => ho s (List.mem_cons_of_mem _ hs))
  exact congrArg MatcherSt.newStates (this old ⟨[], []⟩ hold)

theorem foldl_step_fuel (a : Automata) (f g : Nat)
    (hf : (statesList a).length < f) (hg : (statesList a).length < g) :
    ∀ (s : List Rune) (K : List Nat), (∀ x ∈ K, x ∈ statesList a) →
      s.foldl (stepConf a f) K = s.foldl (stepConf a g) K := by
  intro s
  induction s with
  | nil => intro K _; rfl
  | cons c t ih =>
    intro K hK
    rw [List.foldl_cons, List.foldl_cons, stepConf_fuel a K c f g hK hf hg]
    exact ih _ (stepConf_sub_univ a K c g hK hg)

theorem confRun_fuel (a : Automata) (f : Nat) (hf : fuelBound a ≤ f) (s : List Rune) :
    confRun a f s = confRun a (fuelBound a) s := by
  have hlenB : (statesList a).length < fuelBound a := by unfold fuelBound; omega
  have hlenf : (statesList a).length < f := by unfold fuelBound at hf; omega
  unfold confRun
  have hinit : initConfF a f = initConfF a (fuelBound a) := by
    unfold initConfF
    apply stepConf_fuel a [a.initial] 0 f (fuelBound a) ?_ hlenf hlenB
    intro x hx
    rw [List.mem_singleton] at hx
    subst hx
    exact initial_mem_univ a
  rw [hinit]
  apply foldl_step_fuel a f (fuelBound a) hlenf hlenB
  unfold initConfF
  intro x hx
  exact stepConf_sub_univ a [a.initial] 0 (fuelBound a) (by
    intro y hy
    rw [List.mem_singleton] at hy
    subst hy
    exact initial_mem_univ a) hlenB x hx

theorem addStateF_nodup (a : Automata) : ∀ (f st : Nat) (ms : MatcherSt),
    MSInv ms → ms.newStates.Nodup → st ∉ ms.alreadyOn →
    (addStateF a f st ms).newStates.Nodup := by
  intro f
  induction f with
  | zero => exact fun st ms _ h _ => h
  | succ f ih =>
    intro st ms hinv hnd hnot
    rw [addStateF_succ, addStatesList]
    have hstart : MSInv (⟨ms.newStates ++ [st], st :: ms.alreadyOn⟩ : MatcherSt) ∧
        (ms.newStates ++ [st]).Nodup := by
      constructor
      · intro x
        have hx := hinv x
        simp only [List.mem_cons, List.mem_append, List.mem_singleton]
        tauto
      · rw [List.nodup_append]
        refine ⟨hnd, List.nodup_singleton _, ?_⟩
        intro x hx hx'
        rw [List.mem_singleton] at hx'
        subst hx'
        exact hnot ((hinv x).mpr hx)
    have hfold : MSInv ((a.getTransitions st 0).foldl
        (fun ms' ns => if ns ∈ ms'.alreadyOn then ms' else addStateF a f ns ms')
        ⟨ms.newStates ++ [st], st :: ms.alreadyOn⟩) ∧
        ((a.getTransitions st 0).foldl
          (fun ms' ns => if ns ∈ ms'.alreadyOn then ms' else addStateF a f ns ms')
          ⟨ms.newStates ++ [st], st :: ms.alreadyOn⟩).newStates.Nodup := by
      apply List.foldlRecOn (motive := fun (b : MatcherSt) => MSInv b ∧ b.newStates.Nodup)
      · exact hstart
      · intro b hb ns _
        dsimp only
        split
        · exact hb
        · exact ⟨addStateF_msInv a f ns b hb.1, ih ns b hb.1 hb.2 (by assumption)⟩
    exact hfold.2

theorem addStatesList_nodup (a : Automata) (f : Nat) (ls : List Nat) (ms : MatcherSt)
    (hinv : MSInv ms) (hnd : ms.newStates.Nodup) :
    (addStatesList a f ls ms).newStates.Nodup := by
  have hfold : MSInv (addStatesList a f ls ms) ∧ (addStatesList a f ls ms).newStates.Nodup := by
    rw [addStatesList]
    apply List.foldlRecOn (motive := fun (b : MatcherSt) => MSInv b ∧ b.newStates.Nodup)
    · exact ⟨hinv, hnd⟩
    · intro b hb ns _
      dsimp only
      split
      · exact hb
      · exact ⟨addStateF_msInv a f ns b hb.1, addStateF_nodup a f ns b hb.1 hb.2 (by assumption)⟩
  exact hfold.2

theorem stepConf_nodup (a : Automata) (f : Nat) (old : List Nat) (c : Rune) :
    (stepConf a f old c).Nodup := by
  rw [stepConf_eq]
  have : MSInv (old.foldl (fun ms' s => addStatesList a f (a.getTransitions s c) ms')
      (⟨[], []⟩ : MatcherSt)) ∧
      (old.foldl (fun ms' s => addStatesList a f (a.getTransitions s c) ms')
        (⟨[], []⟩ : MatcherSt)).newStates.Nodup := by
    apply List.foldlRecOn (motive := fun (b : MatcherSt) => MSInv b ∧ b.newStates.Nodup)
    · exact ⟨fun x => by simp, List.nodup_nil⟩
    · intro b hb s _
      exact ⟨addStatesList_msInv a f _ b hb.1, addStatesList_nodup a f _ b hb.1 hb.2⟩
  exact this.2

theorem confRun_nodup (a : Automata) (f : Nat) (s : List Rune) : (confRun a f s).Nodup := by
  unfold confRun
  have : ∀ (t : List Rune) (K : List Nat), K.Nodup → (t.foldl (stepConf a f) K).Nodup := by
    intro t
    induction t with
    | nil => exact fun K h => h
    | cons c r ih => exact fun K _ => ih _ (stepConf_nodup a f K c)
  exact this s _ (stepConf_nodup a f [a.initial] 0)

/-- **C8.**  The simulation terminates for every automaton and input: the
fuelled closure computation stabilises at the `fuelBound` derived from the
state count (states are marked `alreadyOn` before their epsilon successors
are explored, so the recursion never needs more unfoldings than there are
states), and every configuration is duplicate-free (each state is added at
most once). -/
theorem C8_termination (a : Automata) (s : List Rune) (f : Nat) (hf : fuelBound a ≤ f) :
    MatchesF f a s = a.Matches s ∧ (confRun a (fuelBound a) s).Nodup := by
  constructor
  · rw [MatchesF_eq_confRun, Automata.Matches, MatchesF_eq_confRun, confRun_fuel a f hf]
  · exact confRun_nodup a (fuelBound a) s

/-- Witness for `C8_termination`: the automaton of `"a*"` with doubled
fuel behaves identically on `"a"`. -/
theorem C8_termination_witness :
    MatchesF 24 astarA [97] = astarA.Matches [97] ∧
      (confRun astarA (fuelBound astarA) [97]).Nodup :=
  C8_termination astarA [97] 24 (by decide)

/-! ### Table bookkeeping for the builder invariant -/

theorem mem_keysT_insertT (t : Table) (k0 : Nat) (row : Row) (k : Nat) :
    k ∈ keysT (insertT t k0 row) ↔ k ∈ keysT t ∨ k = k0 := by
  induction t with
  | nil => simp [insertT, keysT]
  | cons kr rest ih =>
    rw [insertT]
    by_cases hk : k0 = kr.1
    · rw [if_pos hk]
      subst hk
      simp [keysT]
      tauto
    · rw [if_neg hk]
      simp only [keysT, List.map_cons, List.mem_cons] at ih ⊢
      rw [or_assoc, ← ih]

theorem destsT_insertT_sub (t : Table) (k0 : Nat) (row : Row) (d : Nat) :
    d ∈ destsT (insertT t k0 row) → d ∈ destsT t ∨ d ∈ rowDests row := by
  induction t with
  | nil =>
    intro h
    simp [insertT, destsT] at h
    exact Or.inr h
  | cons kr rest ih =>
    rw [insertT]
    by_cases hk : k0 = kr.1
    · rw [if_pos hk]
      intro h
      simp only [destsT, List.flatMap_cons, List.mem_append] at h ⊢
      tauto
    · rw [if_neg hk]
      intro h
      simp only [destsT, List.flatMap_cons, List.mem_append] at h ⊢
      rcases h with h | h
      · exact Or.inl (Or.inl h)
      · rcases ih h with h' | h'
        · exact Or.inl (Or.inr h')
        · exact Or.inr h'

theorem mem_keysT_deleteT (t : Table) (k0 : Nat) (k : Nat) :
    k ∈ keysT (deleteT t k0) ↔ k ∈ keysT t ∧ k ≠ k0 := by
  unfold deleteT keysT
  rw [List.mem_map]
  constructor
  · rintro ⟨kr, hkr, rfl⟩
    rw [List.mem_filter] at hkr
    refine ⟨List.mem_map.mpr ⟨kr, hkr.1, rfl⟩, by simpa using hkr.2⟩
  · rintro ⟨hk, hne⟩
    obtain ⟨kr, hkr, rfl⟩ := List.mem_map.mp hk
    exact ⟨kr, List.mem_filter.mpr ⟨hkr, by simpa using hne⟩, rfl⟩

theorem destsT_deleteT_sub (t : Table) (k0 : Nat) (d : Nat) :
    d ∈ destsT (deleteT t k0) → d ∈ destsT t := by
  intro h
  unfold destsT deleteT at h
  unfold destsT
  rw [List.mem_flatMap] at h ⊢
  obtain ⟨kr, hkr, hd⟩ := h
  exact ⟨kr, (List.mem_filter.mp hkr).1, hd⟩

theorem mem_keysT_merge (t1 t2 : Table) (k : Nat) :
    k ∈ keysT (mergeTransitions t1 t2) ↔ k ∈ keysT t1 ∨ k ∈ keysT t2 := by
  unfold mergeTransitions
  induction t2 generalizing t1 with
  | nil => simp [keysT]
  | cons kr rest ih =>
    rw [List.foldl_cons]
    rw [ih]
    rw [mem_keysT_insertT]
    simp only [keysT, List.map_cons, List.mem_cons]
    tauto

theorem destsT_merge_sub (t1 t2 : Table) (d : Nat) :
    d ∈ destsT (mergeTransitions t1 t2) → d ∈ destsT t1 ∨ d ∈ destsT t2 := by
  unfold mergeTransitions
  induction t2 generalizing t1 with
  | nil => exact fun h => Or.inl h
  | cons kr rest ih =>
    rw [List.foldl_cons]
    intro h
    rcases ih _ h with h' | h'
    · rcases destsT_insertT_sub t1 kr.1 kr.2 d h' with h'' | h''
      · exact Or.inl h''
      · right
        simp only [destsT, List.flatMap_cons, List.mem_append]
        exact Or.inl h''
    · right
      simp only [destsT, List.flatMap_cons, List.mem_append]
      exact Or.inr h'

theorem lookup_rowDests_sub (t : Table) (k : Nat) (row : Row)
    (h : lookupT t k = some row) : ∀ d ∈ rowDests row, d ∈ destsT t := by
  intro d hd
  unfold destsT
  rw [List.mem_flatMap]
  exact ⟨(k, row), lookupT_mem _ _ _ h, hd⟩

theorem mem_statesList_of_key (a : Automata) (k : Nat) (h : k ∈ keysT a.transitions) :
    k ∈ statesList a := by
  unfold statesList
  exact List.mem_cons_of_mem _ (List.mem_cons_of_mem _ (List.mem_append_left _ h))

theorem mem_statesList_of_dest (a : Automata) (d : Nat) (h : d ∈ destsT a.transitions) :
    d ∈ statesList a := by
  unfold statesList
  exact List.mem_cons_of_mem _ (List.mem_cons_of_mem _ (List.mem_append_right _ h))

theorem accepting_mem_statesList (a : Automata) : a.accepting ∈ statesList a := by
  unfold statesList
  exact List.mem_cons_of_mem _ (List.mem_cons_self _ _)

theorem mem_statesList_iff (a : Automata) (x : Nat) :
    x ∈ statesList a ↔
      x = a.initial ∨ x = a.accepting ∨ x ∈ keysT a.transitions ∨ x ∈ destsT a.transitions := by
  unfold statesList
  simp [List.mem_append]

/-! ### The builder rules preserve the table invariant -/

theorem unionWire_inv (n : Nat) (a1 a2 : Automata) (m1 m2 : Nat)
    (hb1 : Bounded a1 (n + 2) m1) (hb2 : Bounded a2 m1 m2)
    (h1 : n + 2 ≤ m1) (_h2 : m1 ≤ m2)
    (hi1 : TableInv a1) (hi2 : TableInv a2) :
    Bounded (unionWire n a1 a2) n m2 ∧ TableInv (unionWire n a1 a2) := by
  have hkeys : ∀ k, k ∈ keysT (unionWire n a1 a2).transitions ↔
      k ∈ keysT a1.transitions ∨ k ∈ keysT a2.transitions ∨ k = n ∨
        k = a1.accepting ∨ k = a2.accepting := by
    intro k
    show k ∈ keysT (insertT (insertT (insertT
      (mergeTransitions a1.transitions a2.transitions) n _) a1.accepting _)
        a2.accepting _) ↔ _
    rw [mem_keysT_insertT, mem_keysT_insertT, mem_keysT_insertT, mem_keysT_merge]
    tauto
  have hdests : ∀ d, d ∈ destsT (unionWire n a1 a2).transitions →
      d ∈ destsT a1.transitions ∨ d ∈ destsT a2.transitions ∨ d = a1.initial ∨
        d = a2.initial ∨ d = n + 1 := by
    intro d hd
    replace hd := destsT_insertT_sub _ _ _ _ hd
    rcases hd with hd | hd
    · replace hd := destsT_insertT_sub _ _ _ _ hd
      rcases hd with hd | hd
      · replace hd := destsT_insertT_sub _ _ _ _ hd
        rcases hd with hd | hd
        · rcases destsT_merge_sub _ _ _ hd with h | h
          · exact Or.inl h
          · exact Or.inr (Or.inl h)
        · simp only [rowDests, List.flatMap_cons, List.flatMap_nil, List.append_nil,
            List.mem_cons, List.not_mem_nil, or_false] at hd
          rcases hd with rfl | rfl
          · exact Or.inr (Or.inr (Or.inl rfl))
          · exact Or.inr (Or.inr (Or.inr (Or.inl rfl)))
      · simp only [rowDests, List.flatMap_cons, List.flatMap_nil, List.append_nil,
          List.mem_cons, List.not_mem_nil, or_false] at hd
        subst hd
        exact Or.inr (Or.inr (Or.inr (Or.inr rfl)))
    · simp only [rowDests, List.flatMap_cons, List.flatMap_nil, List.append_nil,
        List.mem_cons, List.not_mem_nil, or_false] at hd
      subst hd
      exact Or.inr (Or.inr (Or.inr (Or.inr rfl)))
  have hin1 := hb1 _ (initial_mem_univ a1)
  have hin2 := hb2 _ (initial_mem_univ a2)
  have hac1 := hb1 _ (accepting_mem_statesList a1)
  have hac2 := hb2 _ (accepting_mem_statesList a2)
  have hIeq : (unionWire n a1 a2).initial = n := rfl
  have hAeq : (unionWire n a1 a2).accepting = n + 1 := rfl
  constructor
  · intro x hx
    rw [mem_statesList_iff] at hx
    rcases hx with rfl | rfl | hx | hx
    · omega
    · omega
    · rcases (hkeys x).mp hx with h | h | rfl | rfl | rfl
      · have := hb1 _ (mem_statesList_of_key a1 x h); omega
      · have := hb2 _ (mem_statesList_of_key a2 x h); omega
      · omega
      · omega
      · omega
    · rcases hdests x hx with h | h | rfl | rfl | rfl
      · have := hb1 _ (mem_statesList_of_dest a1 x h); omega
      · have := hb2 _ (mem_statesList_of_dest a2 x h); omega
      · omega
      · omega
      · omega
  · refine ⟨(hkeys _).mpr (Or.inr (Or.inr (Or.inl rfl))), ?_, ?_⟩
    · intro d hd
      rcases hdests d hd with h | h | rfl | rfl | rfl
      · rcases hi1.2.1 d h with h' | rfl
        · exact Or.inl ((hkeys d).mpr (Or.inl h'))
        · exact Or.inl ((hkeys _).mpr (Or.inr (Or.inr (Or.inr (Or.inl rfl)))))
      · rcases hi2.2.1 d h with h' | rfl
        · exact Or.inl ((hkeys d).mpr (Or.inr (Or.inl h')))
        · exact Or.inl ((hkeys _).mpr (Or.inr (Or.inr (Or.inr (Or.inr rfl)))))
      · exact Or.inl ((hkeys _).mpr (Or.inl hi1.1))
      · exact Or.inl ((hkeys _).mpr (Or.inr (Or.inl hi2.1)))
      · exact Or.inr rfl
    · intro hd
      rcases hdests _ hd with h | h | h | h | h
      · have := hb1 _ (mem_statesList_of_dest a1 _ h); omega
      · have := hb2 _ (mem_statesList_of_dest a2 _ h); omega
      · omega
      · omega
      · omega

theorem kleeneWire_inv (n : Nat) (sub : Automata) (m1 : Nat)
    (hb : Bounded sub (n + 2) m1) (h1 : n + 2 ≤ m1) (hi : TableInv sub) :
    Bounded (kleeneWire n sub) n m1 ∧ TableInv (kleeneWire n sub) := by
  have hkeys : ∀ k, k ∈ keysT (kleeneWire n sub).transitions ↔
      k ∈ keysT sub.transitions ∨ k = n ∨ k = sub.accepting ∨ k = n + 1 := by
    intro k
    show k ∈ keysT (insertT (insertT (insertT sub.transitions n _) sub.accepting _)
      (n + 1) _) ↔ _
    rw [mem_keysT_insertT, mem_keysT_insertT, mem_keysT_insertT]
    tauto
  have hdests : ∀ d, d ∈ destsT (kleeneWire n sub).transitions →
      d ∈ destsT sub.transitions ∨ d = sub.initial ∨ d = n + 1 := by
    intro d hd
    replace hd := destsT_insertT_sub _ _ _ _ hd
    rcases hd with hd | hd
    · replace hd := destsT_insertT_sub _ _ _ _ hd
      rcases hd with hd | hd
      · replace hd := destsT_insertT_sub _ _ _ _ hd
        rcases hd with hd | hd
        · exact Or.inl hd
        · simp only [rowDests, List.flatMap_cons, List.flatMap_nil, List.append_nil,
            List.mem_cons, List.not_mem_nil, or_false] at hd
          rcases hd with rfl | rfl
          · exact Or.inr (Or.inl rfl)
          · exact Or.inr (Or.inr rfl)
      · simp only [rowDests, List.flatMap_cons, List.flatMap_nil, List.append_nil,
          List.mem_cons, List.not_mem_nil, or_false] at hd
        rcases hd with rfl | rfl
        · exact Or.inr (Or.inr rfl)
        · exact Or.inr (Or.inl rfl)
    · simp only [rowDests, List.flatMap_nil, List.not_mem_nil] at hd
  have hin := hb _ (initial_mem_univ sub)
  have hac := hb _ (accepting_mem_statesList sub)
  have hIeq : (kleeneWire n sub).initial = n := rfl
  have hAeq : (kleeneWire n sub).accepting = n + 1 := rfl
  constructor
  · intro x hx
    rw [mem_statesList_iff] at hx
    rcases hx with rfl | rfl | hx | hx
    · omega
    · omega
    · rcases (hkeys x).mp hx with h | rfl | rfl | rfl
      · have := hb _ (mem_statesList_of_key sub x h); omega
      · omega
      · omega
      · omega
    · rcases hdests x hx with h | rfl | rfl
      · have := hb _ (mem_statesList_of_dest sub x h); omega
      · omega
      · omega
  · refine ⟨(hkeys _).mpr (Or.inr (Or.inl rfl)), ?_, ?_⟩
    · intro d hd
      rcases hdests d hd with h | rfl | rfl
      · rcases hi.2.1 d h with h' | rfl
        · exact Or.inl ((hkeys d).mpr (Or.inl h'))
        · exact Or.inl ((hkeys _).mpr (Or.inr (Or.inr (Or.inl rfl))))
      · exact Or.inl ((hkeys _).mpr (Or.inl hi.1))
      · exact Or.inr rfl
    · intro hd
      rcases hdests _ hd with h | h | h
      · have := hb _ (mem_statesList_of_dest sub _ h); omega
      · omega
      · omega

theorem concatAutomata_inv (a b : Automata) (n0 n1 n2 : Nat)
    (hba : Bounded a n0 n1) (hbb : Bounded b n1 n2)
    (hia : TableInv a) (hib : TableInv b) :
    Bounded (concatAutomata a b) n0 n2 ∧ TableInv (concatAutomata a b) := by
  have hain := hba _ (initial_mem_univ a)
  have haac := hba _ (accepting_mem_statesList a)
  have hbin := hbb _ (initial_mem_univ b)
  have hbac := hbb _ (accepting_mem_statesList b)
  have hkeys : ∀ k, k ∈ keysT (concatAutomata a b).transitions ↔
      (k ∈ keysT a.transitions ∨ k ∈ keysT b.transitions ∨ k = a.accepting) ∧
        k ≠ b.initial := by
    intro k
    show k ∈ keysT (deleteT (insertT (mergeTransitions a.transitions b.transitions)
      a.accepting _) b.initial) ↔ _
    rw [mem_keysT_deleteT, mem_keysT_insertT, mem_keysT_merge]
    tauto
  have hdests : ∀ d, d ∈ destsT (concatAutomata a b).transitions →
      d ∈ destsT a.transitions ∨ d ∈ destsT b.transitions := by
    intro d hd
    replace hd := destsT_deleteT_sub _ _ _ hd
    replace hd := destsT_insertT_sub _ _ _ _ hd
    rcases hd with hd | hd
    · exact destsT_merge_sub _ _ _ hd
    · rcases hlk : lookupT (mergeTransitions a.transitions b.transitions) b.initial with
        _ | row
      · rw [hlk] at hd
        simp [rowDests] at hd
      · rw [hlk] at hd
        have := lookup_rowDests_sub _ _ _ hlk d (by simpa using hd)
        exact destsT_merge_sub _ _ _ this
  have hIeq : (concatAutomata a b).initial = a.initial := rfl
  have hAeq : (concatAutomata a b).accepting = b.accepting := rfl
  constructor
  · intro x hx
    rw [mem_statesList_iff] at hx
    rcases hx with rfl | rfl | hx | hx
    · omega
    · omega
    · rcases ((hkeys x).mp hx).1 with h | h | rfl
      · have := hba _ (mem_statesList_of_key a x h); omega
      · have := hbb _ (mem_statesList_of_key b x h); omega
      · omega
    · rcases hdests x hx with h | h
      · have := hba _ (mem_statesList_of_dest a x h); omega
      · have := hbb _ (mem_statesList_of_dest b x h); omega
  · refine ⟨?_, ?_, ?_⟩
    · show a.initial ∈ keysT (concatAutomata a b).transitions
      rw [hkeys]
      exact ⟨Or.inl hia.1, by omega⟩
    · intro d hd
      rcases hdests d hd with h | h
      · rcases hia.2.1 d h with h' | rfl
        · have hne : d ≠ b.initial := by
            have := hba _ (mem_statesList_of_dest a d h); omega
          exact Or.inl ((hkeys d).mpr ⟨Or.inl h', hne⟩)
        · exact Or.inl ((hkeys _).mpr ⟨Or.inr (Or.inr rfl), by omega⟩)
      · rcases hib.2.1 d h with h' | rfl
        · have hne : d ≠ b.initial := fun heq => hib.2.2 (heq ▸ h)
          exact Or.inl ((hkeys d).mpr ⟨Or.inr (Or.inl h'), hne⟩)
        · exact Or.inr rfl
    · intro hd
      rcases hdests _ hd with h | h
      · exact hia.2.2 h
      · have := hbb _ (mem_statesList_of_dest b _ h)
        omega

theorem exprSize_pos : ∀ e : expr, 1 ≤ exprSize e := by
  intro e
  cases e <;> simp [exprSize]

/-- Every automaton built by `convert` consumes fresh state identities, all
its states lie in the consumed counter range, and it satisfies the table
invariant `TableInv`. -/
theorem convert_inv_main : ∀ sz : Nat,
    (∀ (e : expr) (n : Nat) (A : Automata) (m : Nat), exprSize e ≤ sz →
      convert e n = some (A, m) → n ≤ m ∧ Bounded A n m ∧ TableInv A) ∧
    (∀ (es : List expr) (a0 : Automata) (n0 n : Nat) (A : Automata) (m : Nat),
      exprSizeL es < sz → convertRest es a0 n = some (A, m) →
      Bounded a0 n0 n → TableInv a0 → n ≤ m ∧ Bounded A n0 m ∧ TableInv A) := by
  intro sz
  induction sz using Nat.strong_induction_on with
  | _ sz IH =>
  constructor
  · intro e n A m hsz hconv
    cases e with
    | match_ c =>
      simp only [convert, Option.some.injEq, Prod.mk.injEq] at hconv
      obtain ⟨rfl, rfl⟩ := hconv
      refine ⟨by omega, ?_, ?_, ?_, ?_⟩
      · intro x hx
        simp [statesList, keysT, destsT, rowDests] at hx
        omega
      · simp [keysT]
      · intro d hd
        simp [destsT, rowDests] at hd
        simp [keysT, hd]
      · simp [destsT, rowDests]
    | concat es =>
      cases es with
      | nil => simp [convert] at hconv
      | cons e0 rest =>
        simp only [convert] at hconv
        cases hc0 : convert e0 n with
        | none => rw [hc0] at hconv; simp at hconv
        | some p =>
          rw [hc0] at hconv
          simp only [Option.some_bind] at hconv
          obtain ⟨pa, pn⟩ := p
          have hsz' : exprSize e0 + exprSizeL rest + 1 ≤ sz := by
            simpa [exprSize, exprSizeL] using hsz
          have hpos := exprSize_pos e0
          obtain ⟨h0le, hb0, hi0⟩ :=
            (IH (exprSize e0) (by omega)).1 e0 n pa pn le_rfl hc0
          obtain ⟨h1le, hb1, hi1⟩ :=
            (IH (exprSizeL rest + 1) (by omega)).2 rest pa n pn A m (by omega) hconv hb0 hi0
          exact ⟨by omega, hb1, hi1⟩
    | union e1 e2 =>
      simp only [convert] at hconv
      cases hc1 : convert e1 (n + 2) with
      | none => rw [hc1] at hconv; simp at hconv
      | some p1 =>
        rw [hc1] at hconv
        simp only [Option.some_bind] at hconv
        obtain ⟨pa1, pn1⟩ := p1
        cases hc2 : convert e2 pn1 with
        | none => rw [hc2] at hconv; simp at hconv
        | some p2 =>
          rw [hc2] at hconv
          obtain ⟨pa2, pn2⟩ := p2
          simp only [Option.map_some', Option.some.injEq, Prod.mk.injEq] at hconv
          obtain ⟨rfl, rfl⟩ := hconv
          have hsz' : exprSize e1 + exprSize e2 + 1 ≤ sz := by
            simpa [exprSize] using hsz
          have hpos1 := exprSize_pos e1
          have hpos2 := exprSize_pos e2
          obtain ⟨h1le, hb1, hi1⟩ :=
            (IH (exprSize e1) (by omega)).1 e1 (n + 2) pa1 pn1 le_rfl hc1
          obtain ⟨h2le, hb2, hi2⟩ :=
            (IH (exprSize e2) (by omega)).1 e2 pn1 pa2 pn2 le_rfl hc2
          obtain ⟨hbu, hiu⟩ := unionWire_inv n pa1 pa2 pn1 pn2 hb1 hb2 h1le h2le hi1 hi2
          exact ⟨by omega, hbu, hiu⟩
    | kleene e1 =>
      simp only [convert] at hconv
      cases hc1 : convert e1 (n + 2) with
      | none => rw [hc1] at hconv; simp at hconv
      | some p1 =>
        rw [hc1] at hconv
        obtain ⟨pa1, pn1⟩ := p1
        simp only [Option.map_some', Option.some.injEq, Prod.mk.injEq] at hconv
        obtain ⟨rfl, rfl⟩ := hconv
        have hsz' : exprSize e1 + 1 ≤ sz := by simpa [exprSize] using hsz
        obtain ⟨h1le, hb1, hi1⟩ :=
          (IH (exprSize e1) (by omega)).1 e1 (n + 2) pa1 pn1 le_rfl hc1
        obtain ⟨hbk, hik⟩ := kleeneWire_inv n pa1 pn1 hb1 h1le hi1
        exact ⟨by omega, hbk, hik⟩
  · intro es a0 n0 n A m hsz hconv hb hi
    cases es with
    | nil =>
      simp only [convertRest, Option.some.injEq, Prod.mk.injEq] at hconv
      obtain ⟨rfl, rfl⟩ := hconv
      exact ⟨le_rfl, hb, hi⟩
    | cons e rest =>
      simp only [convertRest] at hconv
      cases hc : convert e n with
      | none => rw [hc] at hconv; simp at hconv
      | some p =>
        rw [hc] at hconv
        simp only [Option.some_bind] at hconv
        obtain ⟨pa, pn⟩ := p
        have hsz' : exprSize e + exprSizeL rest < sz := by
          simpa [exprSizeL] using hsz
        have hpos := exprSize_pos e
        obtain ⟨hle, hbe, hie⟩ := (IH (exprSize e) (by omega)).1 e n pa pn le_rfl hc
        obtain ⟨hbc, hic⟩ := concatAutomata_inv a0 pa n0 n pn hb hbe hi hie
        obtain ⟨hler, hbr, hir⟩ :=
          (IH (exprSizeL rest + 1) (by omega)).2 rest (concatAutomata a0 pa) n0 pn A m
            (by omega) hconv hbc hic
        exact ⟨by omega, hbr, hir⟩

theorem convert_tableInv (e : expr) (n : Nat) (A : Automata) (m : Nat)
    (h : convert e n = some (A, m)) : TableInv A :=
  ((convert_inv_main (exprSize e)).1 e n A m le_rfl h).2.2

theorem reach_key_or_acc (a : Automata) (hinv : TableInv a) :
    ∀ t, Reach a t → t ∈ keysT a.transitions ∨ t = a.accepting := by
  intro t h
  induction h with
  | init => exact Or.inl hinv.1
  | step hprev hmem ih =>
    unfold Automata.getTransitions at hmem
    rcases List.mem_append.mp hmem with h1 | h1
    · split at h1
      · rw [List.mem_singleton] at h1
        subst h1
        exact ih
      · exact absurd h1 (List.not_mem_nil _)
    · split at h1
      · rename_i row heq
        split at h1
        · rename_i ds heq2
          apply hinv.2.1
          unfold destsT
          rw [List.mem_flatMap]
          refine ⟨(_, row), lookupT_mem _ _ _ heq, ?_⟩
          unfold rowDests
          rw [List.mem_flatMap]
          exact ⟨(_, ds), lookupRow_mem _ _ _ heq2, h1⟩
        · exact absurd h1 (List.not_mem_nil _)
      · exact absurd h1 (List.not_mem_nil _)

/-- **C9, counterexample.**  In the automaton compiled from `"a|b"` the
accepting state is reachable from the initial state (two epsilon steps and
one `a` step away) but is *not* a key of the transition table:
`union.convert` never adds its fresh accepting state as a key. -/
theorem C9_counterexample :
    Compile [97, 124, 98] = .ok (some aUbA) ∧ Reach aUbA aUbA.accepting ∧
      aUbA.accepting ∉ keysT aUbA.transitions := by
  refine ⟨rfl, ?_, by decide⟩
  have h1 : (2 : Nat) ∈ aUbA.getTransitions 0 0 := by decide
  have h2 : (3 : Nat) ∈ aUbA.getTransitions 2 97 := by decide
  have h3 : (1 : Nat) ∈ aUbA.getTransitions 3 0 := by decide
  have r0 : Reach aUbA 0 := Reach.init
  exact Reach.step (Reach.step (Reach.step r0 h1) h2) h3

/-- **C9, amended.**  For every automaton produced by `Compile`, every
state reachable from the initial state is a key of the transition table
*or* is the automaton's accepting state; the accepting state itself may be
missing from the table (exactly when the outermost fragment wiring is an
alternation, see `C9_counterexample`). -/
theorem C9_reachable_states (input : List Rune) (A : Automata)
    (hcomp : Compile input = .ok (some A)) :
    ∀ t, Reach A t → t ∈ keysT A.transitions ∨ t = A.accepting := by
  unfold Compile at hcomp
  split at hcomp
  · simp at hcomp
  · rename_i e rest heq
    simp only [Except.ok.injEq] at hcomp
    cases hc : convert e 0 with
    | none => rw [hc] at hcomp; simp at hcomp
    | some p =>
      rw [hc] at hcomp
      simp only [Option.map_some', Option.some.injEq] at hcomp
      subst hcomp
      exact reach_key_or_acc p.1 (convert_tableInv e 0 p.1 p.2 (by rw [hc]))

/-- Witness for `C9_reachable_states` at the compiled pattern `"a|b"` and
its (reachable) initial state. -/
theorem C9_reachable_states_witness :
    aUbA.initial ∈ keysT aUbA.transitions ∨ aUbA.initial = aUbA.accepting :=
  C9_reachable_states [97, 124, 98] aUbA rfl aUbA.initial Reach.init

end GoGrep
